import Mathlib

/-!
# arTTY: the art generator and the command-line validation

A shallow embedding of `generator/utils.go` (`bootstrap`, `getPixelInfo`) and of
`cmd/arTTY/cli.go` (`validate`), with the properties of the specification stated
over it.

Conventions of the embedding

* A Go `string` is the list of its characters (`List Char`); the cells of a grid,
  which are tokens handed back by the palette library, are `String`s.
* A Go `int` that is never negative on any path (image bounds of a decoded image,
  numbers read from a run of decimal digits, loop counters that only grow) is a `Nat`.
* A `float64` that holds an integer is the `Nat` it holds; the conversion
  `float64(n)` and the rounding of a sum are `f64OfNat`, which is the identity up
  to `2 ^ 53` and rounds to 53 significant bits beyond.
* A `for` loop is a function with fuel: it returns `none` when the fuel runs out
  before the loop condition turns false.
-/

namespace Artty

/-! ## Floating point on integers -/

/-- The `float64` nearest to the natural number `n` (round half to even), given as the
natural number it denotes. Every `n ≤ 2 ^ 53` is a `float64`. -/
def f64OfNat (n : Nat) : Nat :=
  if n ≤ 2 ^ 53 then n
  else
    let e := Nat.log2 n - 52
    let q := n / 2 ^ e
    let r := n % 2 ^ e
    let q1 := if 2 * r < 2 ^ e then q else if 2 ^ e < 2 * r then q + 1
              else if q % 2 = 0 then q else q + 1
    q1 * 2 ^ e

/-- The loop update `v = int(float64(v) + inc)` where `inc` is a `float64` holding an
integer: the conversion of `v`, then the rounded sum, truncated back to `int`. -/
def advance (v inc : Nat) : Nat :=
  f64OfNat (f64OfNat v + inc)

/-! ## Images and colours -/

/-- What `Color.RGBA()` returns: four `uint32` values, alpha-premultiplied, each in
`[0, 0xffff]`. -/
structure RGBA where
  r : Nat
  g : Nat
  b : Nat
  a : Nat
deriving DecidableEq

/-- An `image.Image` as `getPixelInfo` uses it: `Bounds().Max.X`, `Bounds().Max.Y`
and `At(x, y).RGBA()`. -/
structure Image where
  maxX : Nat
  maxY : Nat
  colorAt : Nat → Nat → RGBA

/-- The method `color.NRGBA.RGBA` of the Go standard library (`image/color`): an
8-bit, non-premultiplied colour `(R, G, B, A)` is widened to 16 bits per channel
(`r |= r << 8`, that is `R * 0x101`), the colour channels are multiplied by `A`
and divided by `0xff`, and alpha is `A * 0x101`. The PNG decoder returns
`image.NRGBA` for 8-bit truecolour images with alpha. -/
def nrgbaRGBA (R G B A : Nat) : RGBA :=
  { r := R * 0x101 * A / 0xff
    g := G * 0x101 * A / 0xff
    b := B * 0x101 * A / 0xff
    a := A * 0x101 }

/-- The usual reading of a 16-bit channel on the 0-255 scale (`uint8(v >> 8)`, as
`color.RGBAModel` and `color.NRGBAModel` do). -/
def alpha8 (c : RGBA) : Nat := c.a / 256

/-! ## The cell of a pixel (`utils.go`, lines 94-107) -/

/-- One lower-case hexadecimal digit. -/
def hexDigit (n : Nat) : Char :=
  if n < 10 then Char.ofNat (48 + n) else Char.ofNat (87 + n)

/-- The verb `%02x` applied to a `uint8`. -/
def hex2 (n : Nat) : List Char :=
  [hexDigit (n / 16 % 16), hexDigit (n % 16)]

/-- The argument of `HexToXterm256`: `Sprintf("%02x%02x%02x", uint8(r), uint8(g), uint8(b))`;
the conversion `uint8(v)` of a `uint32` keeps the low byte. -/
def hexOf (c : RGBA) : String :=
  String.mk (hex2 (c.r % 256) ++ hex2 (c.g % 256) ++ hex2 (c.b % 256))

/-- The body of the inner loop: `clr` for the colour `c = img.At(x, y).RGBA()`.
`hexToXterm256` is the palette lookup of the `hilighter` library. -/
def cellOf (hexToXterm256 : String → String) (c : RGBA) : String :=
  if c.a > 0x30 then hexToXterm256 (hexOf c) else ""

/-! ## The sampler (`getPixelInfo`) -/

/-- The loop `for v := start; v < bound; v = int(float64(v) + inc) { out = append(out, body(v)) }`.
The body may itself fail to return. -/
def walk {β : Type} (bound inc : Nat) (body : Nat → Option β) : Nat → Nat → Option (List β)
  | 0, v => if v < bound then none else some []
  | fuel + 1, v =>
    if v < bound then
      match body v with
      | none => none
      | some b =>
        match walk bound inc body fuel (advance v inc) with
        | none => none
        | some rest => some (b :: rest)
    else some []

/-- Lines 78-88 of `getPixelInfo`: `(hInc, wInc, offset)`. The result is `none` when
an integer division by zero panics (`hMax / height` is evaluated first). -/
def strides (img : Image) (width height : Nat) : Option (Nat × Nat × Nat) :=
  if height ≠ img.maxY ∧ width ≠ img.maxX then
    if height = 0 then none
    else if width = 0 then none
    else
      let hInc := f64OfNat (img.maxY / height)
      some (hInc, f64OfNat (img.maxX / width), hInc / 2)
  else some (1, 1, 0)

/-- The two nested loops of `getPixelInfo`, with the work done at `(x, y)` left open. -/
def sample {α : Type} (at_ : Nat → Nat → α) (fuel : Nat) (img : Image) (width height : Nat) :
    Option (List (List α)) :=
  match strides img width height with
  | none => none
  | some (hInc, wInc, offset) =>
    walk img.maxY hInc
      (fun y => walk img.maxX wInc (fun x => some (at_ x y)) fuel offset) fuel offset

/-- The function `getPixelInfo`: the grid of cells. -/
def getPixelInfo (hexToXterm256 : String → String) (fuel : Nat) (img : Image)
    (width height : Nat) : Option (List (List String)) :=
  sample (fun x y => cellOf hexToXterm256 (img.colorAt x y)) fuel img width height

/-- The coordinates `(x, y)` at which `getPixelInfo` calls `img.At`, in the order and
grouping of the cells it appends. -/
def sampledCoords (fuel : Nat) (img : Image) (width height : Nat) :
    Option (List (List (Nat × Nat))) :=
  sample (fun x y => (x, y)) fuel img width height

/-- Number of values `start, start + inc, ...` below `bound`. -/
def steps (bound inc start : Nat) : Nat :=
  (bound - start + inc - 1) / inc

/-- The grid a walk over rows and columns produces when both strides are positive. -/
def gridOf {α : Type} (at_ : Nat → Nat → α) (img : Image) (hInc wInc offset : Nat) :
    List (List α) :=
  (List.range (steps img.maxY hInc offset)).map fun i =>
    (List.range (steps img.maxX wInc offset)).map fun j =>
      at_ (offset + j * wInc) (offset + i * hInc)

/-- A 4 x 4 test image whose pixel at `(x, y)` has red `x` and green `y`, fully opaque. -/
def img4 : Image :=
  { maxX := 4, maxY := 4, colorAt := fun x y => nrgbaRGBA x y 0 0xff }

/-- A test image 4 pixels wide and 16 pixels high. -/
def img4x16 : Image :=
  { maxX := 4, maxY := 16, colorAt := fun x y => nrgbaRGBA x y 0 0xff }

/-! ## The filename pattern (`utils.go`, line 42)

The pattern is `([^/]+?)(_(\d+)x(\d+))?\.`. Go's `regexp` returns the leftmost
match and, among the matches that start there, the one a backtracking search finds
first: `+?` tries the shortest run first, `?` tries the group before trying to skip
it, `+` takes the longest run of digits first. -/

/-- One submatch of `FindAllStringSubmatch`: the groups the loop reads (`match[1]`,
`match[3]`, `match[4]`; a group that took no part in the match is the empty string)
and the text after the match. -/
structure Submatch where
  m1 : List Char
  m3 : List Char
  m4 : List Char
  rest : List Char
deriving DecidableEq

/-- A literal character of the pattern: the text after it, when the text starts with it. -/
def expect (c : Char) : List Char → Option (List Char)
  | [] => none
  | d :: r => if d = c then some r else none

/-- The part `_(\d+)x(\d+)` of the pattern followed by `\.`, at the start of `s`: groups 3
and 4 and the text after the dot. A run `\d+` is the longest run of digits: a
shorter one is followed by a digit, which is neither the `x` nor the dot the
pattern asks for next, so backtracking into the run never succeeds. -/
def dimsThenDot (s : List Char) : Option (List Char × List Char × List Char) :=
  match expect '_' s with
  | none => none
  | some t =>
    if t.takeWhile Char.isDigit = [] then none
    else
      match expect 'x' (t.dropWhile Char.isDigit) with
      | none => none
      | some u =>
        if u.takeWhile Char.isDigit = [] then none
        else
          match expect '.' (u.dropWhile Char.isDigit) with
          | none => none
          | some r => some (t.takeWhile Char.isDigit, u.takeWhile Char.isDigit, r)

/-- The part `(_(\d+)x(\d+))?\.` of the pattern at the start of `s`: first with the optional
group, then without it. -/
def suffixAt (s : List Char) : Option (List Char × List Char × List Char) :=
  match dimsThenDot s with
  | some m => some m
  | none =>
    match expect '.' s with
    | none => none
    | some r => some ([], [], r)

/-- The lazy group `([^/]+?)` having taken `acc` (not empty): try the rest of the
pattern here, and only when that fails let the group take one more character. At
the end of the text nothing is left for the dot. -/
def matchHere (acc : List Char) : List Char → Option Submatch
  | [] => none
  | c :: s1 =>
    match suffixAt (c :: s1) with
    | some (w, h, r) => some ⟨acc, w, h, r⟩
    | none => if c = '/' then none else matchHere (acc ++ [c]) s1

/-- The match of the whole pattern that starts at the first character of `s`. -/
def matchAt : List Char → Option Submatch
  | [] => none
  | c :: s => if c = '/' then none else matchHere [c] s

/-- The successive non-overlapping matches in `s`: when a match starts at the first
character the search goes on after it, otherwise one character further. Every match
takes at least two characters, so `fuel = s.length` is enough. -/
def findAllAux : Nat → List Char → List Submatch
  | 0, _ => []
  | _, [] => []
  | fuel + 1, c :: s =>
    match matchAt (c :: s) with
    | some m => m :: findAllAux fuel m.rest
    | none => findAllAux fuel s

/-- The call `r.FindAllStringSubmatch(filename, -1)`. -/
def findAll (s : List Char) : List Submatch :=
  findAllAux s.length s

/-! ## `bootstrap` -/

/-- The value of a string of decimal digits. -/
def decimal (s : List Char) : Nat :=
  s.foldl (fun n c => 10 * n + (c.toNat - 48)) 0

/-- The first result of `strconv.Atoi` (the error is dropped by the caller) on the
text of a group `(\d+)`: `0` for the empty string (a syntax error), the value of
the digits, and the largest `int` (64 bits) when the value is out of range. -/
def atoi (s : List Char) : Nat :=
  if s = [] ∨ ¬ s.all Char.isDigit then 0 else min (decimal s) (2 ^ 63 - 1)

/-- What lines 42-56 of `bootstrap` settle: the name and the size handed to
`getPixelInfo`. -/
structure Target where
  name : List Char
  width : Nat
  height : Nat
deriving DecidableEq

/-- One iteration of the loop over the matches (lines 45-50). -/
def matchStep (t : Target) (m : Submatch) : Target :=
  { name := if t.name.length = 0 then m.m1 else t.name
    width := atoi m.m3
    height := atoi m.m4 }

/-- Lines 42-56 of `bootstrap`: `height` and `width` start at zero, the loop runs over
every match, and a zero falls back to the bounds of the image. -/
def resolve (filename name : List Char) (img : Image) : Target :=
  let t := (findAll filename).foldl matchStep { name := name, width := 0, height := 0 }
  if t.height = 0 ∨ t.width = 0 then { t with width := img.maxX, height := img.maxY }
  else t

/-- What `bootstrap` needs from outside: `pathname.DoesExist`, `pathname.ExpandPath`,
`os.Open`, `image.Decode` and `hilighter.HexToXterm256`. An `error` is its message. -/
structure Env where
  doesExist : List Char → Bool
  expandPath : List Char → List Char
  openFile : List Char → Except String Nat
  decode : Nat → Except String Image
  hexToXterm256 : String → String

/-- The four results of `bootstrap`; `err = none` is the `nil` error, a `nil` slice is
the empty list. -/
structure Outcome where
  name : List Char
  pixels : List (List String)
  legend : List (String × String)
  err : Option String
deriving DecidableEq

/-- The function `bootstrap`. The variable `e` is declared at line 19 and first assigned
by `os.Open` at line 34, so the `return` of line 29 returns the `nil` error. The
result is `none` when `getPixelInfo` does not return. -/
def bootstrap (env : Env) (fuel : Nat) (filename name : List Char) : Option Outcome :=
  if !env.doesExist filename then some { name := [], pixels := [], legend := [], err := none }
  else
    let filename := env.expandPath filename
    match env.openFile filename with
    | .error e => some { name := [], pixels := [], legend := [], err := some e }
    | .ok imgFile =>
      match env.decode imgFile with
      | .error e => some { name := [], pixels := [], legend := [], err := some e }
      | .ok img =>
        let t := resolve filename name img
        match getPixelInfo env.hexToXterm256 fuel img t.width t.height with
        | none => none
        | some pixels => some { name := t.name, pixels := pixels, legend := [], err := none }

/-- An environment in which no file exists. -/
def emptyDisk : Env :=
  { doesExist := fun _ => false
    expandPath := fun p => p
    openFile := fun _ => .error "no such file or directory"
    decode := fun _ => .error "image: unknown format"
    hexToXterm256 := fun h => h }

/-- The name the specification describes, in its words: the basename of the path,
without its extension, without a trailing `_<digits>x<digits>`. -/
def basename (path : List Char) : List Char :=
  (path.reverse.takeWhile (· ≠ '/')).reverse

/-- The basename without its extension (the text from the last dot on). -/
def stem (path : List Char) : List Char :=
  let b := basename path
  if '.' ∈ b then (b.reverse.dropWhile (· ≠ '.')).tail.reverse else b

/-- Whether `s` is `_<digits>x<digits>`. -/
def isDims (s : List Char) : Bool :=
  match dimsThenDot (s ++ ['.']) with
  | some (_, _, r) => r = []
  | none => false

/-- The stem without a trailing `_<digits>x<digits>`: the shortest prefix that leaves
such a suffix, when there is one. -/
def stripDims (s : List Char) : List Char :=
  match (List.range s.length).find? (fun k => isDims (s.drop k)) with
  | some k => s.take k
  | none => s

/-- The name of the specification for an empty explicit name. -/
def specName (path : List Char) : List Char :=
  stripDims (stem path)

/-! ## Paths that follow the filename convention `<name>[_<width>x<height>].<ext>` -/

/-- A run of decimal digits, not empty. -/
def Digits (s : List Char) : Prop :=
  s ≠ [] ∧ ∀ c ∈ s, c.isDigit = true

/-- The directory part of a path: empty, or ending with the separator. -/
def DirPart (d : List Char) : Prop :=
  d = [] ∨ d.getLast? = some '/'

/-- A name with no separator and no dot, not empty. -/
def PlainName (s : List Char) : Prop :=
  s ≠ [] ∧ '/' ∉ s ∧ '.' ∉ s

/-- An extension: no separator and no dot. -/
def PlainExt (s : List Char) : Prop :=
  '/' ∉ s ∧ '.' ∉ s

/-- What may stand before the last dot-free part of a file name: nothing, or a text
that ends with the separator or with a dot. -/
def EndsSep (p : List Char) : Prop :=
  p = [] ∨ p.getLast? = some '/' ∨ p.getLast? = some '.'

/-- The name does not end with `_<digits>x<digits>`. -/
def NoDims (s : List Char) : Prop :=
  ∀ p w h, Digits w → Digits h → s ≠ p ++ ('_' :: (w ++ 'x' :: h))

/-- The text `_<w>x<h>.<ext>`. -/
def dimsDotExt (w h ext : List Char) : List Char :=
  '_' :: (w ++ 'x' :: (h ++ '.' :: ext))

/-- The path `<pre><name>_<w>x<h>.<ext>`. -/
def pathWithDims (pre name w h ext : List Char) : List Char :=
  pre ++ (name ++ dimsDotExt w h ext)

/-- The path `<pre><name>.<ext>`. -/
def pathWithoutDims (pre name ext : List Char) : List Char :=
  pre ++ (name ++ '.' :: ext)

/-! ## `validate` (`cli.go`) -/

/-- The struct `cliFlags`. -/
structure CliFlags where
  all : Bool
  cache : Bool
  clear : Bool
  demo : Bool
  exclude : String
  devexcuse : Bool
  fields : String
  fit : Bool
  fortune : Bool
  generate : String
  list : Bool
  «match» : String
  nocolor : Bool
  plain : Bool
  random : Bool
  save : Bool
  sysinfo : Bool
  update : Bool
  verbose : Bool
  version : Bool

/-- The exit statuses named in `cli.ExitStatus` (lines 43-53); `validate` passes them
to `cli.Usage` by name. -/
inductive ExitStatus where
  | InvalidOption
  | InvalidArgument
  | ExtraArguments
  | Exception
deriving DecidableEq

/-- A value handed to `config.Set`. -/
inductive ConfigValue where
  | str (s : String)
  | bool (b : Bool)
  | strs (l : List String)
deriving DecidableEq

/-- A call on the configuration: `config.Set(key, value)` or `config.Default()`. -/
inductive ConfigOp where
  | set (key : String) (value : ConfigValue)
  | default
deriving DecidableEq

/-- The package state `validate` works on: the variable `action` and the calls made
on `config`, oldest first. -/
structure CliState where
  action : String
  config : List ConfigOp
deriving DecidableEq

/-- The effect of `config.Set(key, value)`. -/
def CliState.set (s : CliState) (key : String) (value : ConfigValue) : CliState :=
  { s with config := s.config ++ [ConfigOp.set key value] }

/-- A run of `validate`: it returns with a state, or `cli.Usage(status)` prints the
usage and exits the process with `status`, in the state reached so far. -/
abbrev Run := Except (ExitStatus × CliState) CliState

/-- One of the six blocks of lines 202-242: when the flag is set, the usage error
unless `action` is still `"draw"`, then the new action. -/
def actionStep (flag : Bool) (name : String) (s : CliState) : Run :=
  if flag then
    if s.action ≠ "draw" then .error (ExitStatus.InvalidOption, s)
    else .ok { s with action := name }
  else .ok s

/-- Lines 202-242: the checks of the actions. -/
def checkActions (flags : CliFlags) (s : CliState) : Run := do
  let s ← actionStep flags.cache "cache" s
  let s ← actionStep flags.demo "demo" s
  let s ← actionStep (decide (flags.generate.length > 0)) "generate" s
  let s ← actionStep flags.list "list" s
  let s ← actionStep flags.save "save" s
  actionStep flags.update "update" s

/-- A block `if cond { ... }` whose body only writes to the configuration. -/
def onFlag (cond : Bool) (body : CliState → CliState) (s : CliState) : CliState :=
  if cond then body s else s

/-- Lines 245-295: the flags that only write to the configuration, block after block. -/
def applyConfig (flags : CliFlags) (s : CliState) : CliState :=
  s |> onFlag flags.all (fun s =>
        ((s.set "exclude" (.str "")).set "fit" (.bool false)).set "match" (.str ""))
    |> onFlag flags.plain (fun s =>
        (((({ s with config := s.config ++ [ConfigOp.default] }).set "clear_screen"
          (.bool false)).set "fit" (.bool false)).set "random" (.bool false)).set "sysinfo"
          (.bool false))
    |> onFlag flags.clear (fun s => s.set "clear_screen" (.bool true))
    |> onFlag flags.devexcuse (fun s => s.set "devexcuse" (.bool true))
    |> onFlag (decide (flags.exclude.length > 0)) (fun s => s.set "exclude" (.str flags.exclude))
    |> onFlag (decide (flags.fields.length > 0)) (fun s =>
        (s.set "fields" (.strs (flags.fields.splitOn ","))).set "sysinfo" (.bool true))
    |> onFlag flags.fit (fun s => s.set "fit" (.bool true))
    |> onFlag flags.fortune (fun s => s.set "fortune" (.bool true))
    |> onFlag (decide (flags.«match».length > 0)) (fun s => s.set "match" (.str flags.«match»))
    |> onFlag flags.random (fun s => s.set "random" (.bool true))
    |> onFlag flags.sysinfo (fun s => s.set "sysinfo" (.bool true))

/-- Lines 298-303: the positional arguments (`cli.NArg()`, `cli.Arg(0)`). -/
def checkArgs (args : List String) (s : CliState) : Run :=
  match args with
  | [a] => .ok ((s.set "art" (.str a)).set "random" (.bool false))
  | [] => .ok s
  | _ :: _ :: _ => .error (ExitStatus.ExtraArguments, s)

/-- The function `validate`. -/
def validate (flags : CliFlags) (args : List String) (s : CliState) : Run := do
  let s ← checkActions flags s
  checkArgs args (applyConfig flags s)

/-- The state in which a run ends. -/
def Run.final : Run → CliState
  | .ok s => s
  | .error (_, s) => s

/-- The actions of the action flags that are set, in the order `validate` checks them. -/
def setActions (flags : CliFlags) : List String :=
  ([(flags.cache, "cache"), (flags.demo, "demo"), (decide (flags.generate.length > 0), "generate"),
    (flags.list, "list"), (flags.save, "save"), (flags.update, "update")].filter
      (fun p => p.1)).map (fun p => p.2)

/-- No flag set. -/
def noFlags : CliFlags :=
  { all := false, cache := false, clear := false, demo := false, exclude := "",
    devexcuse := false, fields := "", fit := false, fortune := false, generate := "",
    list := false, «match» := "", nocolor := false, plain := false, random := false,
    save := false, sysinfo := false, update := false, verbose := false, version := false }

/-! ## Lemmas on the sampler -/

theorem f64OfNat_exact {n : Nat} (h : n ≤ 2 ^ 53) : f64OfNat n = n := by
  unfold f64OfNat
  rw [if_pos h]

theorem advance_exact {v inc : Nat} (h : v + inc ≤ 2 ^ 53) : advance v inc = v + inc := by
  unfold advance
  have hv : f64OfNat v = v := f64OfNat_exact (by omega)
  rw [hv, f64OfNat_exact h]

theorem steps_lt_iff {bound inc start : Nat} (hinc : 0 < inc) (i : Nat) :
    i < steps bound inc start ↔ start + i * inc < bound := by
  unfold steps
  rw [Nat.lt_iff_add_one_le, Nat.le_div_iff_mul_le hinc, Nat.succ_mul]
  omega

theorem steps_le_bound {bound inc start : Nat} (hinc : 0 < inc) :
    steps bound inc start ≤ bound := by
  by_contra hlt
  have h1 : bound < steps bound inc start := by omega
  have h2 := (steps_lt_iff hinc bound).1 h1
  have h3 : bound * 1 ≤ bound * inc := Nat.mul_le_mul_left _ hinc
  omega

theorem steps_succ {bound inc start : Nat} (hinc : 0 < inc) (h : start < bound) :
    steps bound inc start = steps bound inc (start + inc) + 1 := by
  apply Nat.le_antisymm
  · by_contra hlt
    have h1 : steps bound inc (start + inc) + 1 < steps bound inc start := by omega
    have h2 := (steps_lt_iff hinc _).1 h1
    have h3 : ¬ (steps bound inc (start + inc) < steps bound inc (start + inc)) := by omega
    rw [steps_lt_iff hinc] at h3
    rw [Nat.succ_mul] at h2
    omega
  · by_contra hlt
    have h1 : steps bound inc start ≤ steps bound inc (start + inc) := by omega
    rcases Nat.eq_zero_or_pos (steps bound inc (start + inc)) with h0 | hpos
    · have h2 : ¬ (0 < steps bound inc start) := by omega
      rw [steps_lt_iff hinc] at h2
      omega
    · have h2 : steps bound inc (start + inc) - 1 < steps bound inc (start + inc) := by omega
      have h3 := (steps_lt_iff hinc _).1 h2
      have h4 : ¬ (steps bound inc (start + inc) < steps bound inc start) := by omega
      rw [steps_lt_iff hinc] at h4
      obtain ⟨k, hk⟩ : ∃ k, steps bound inc (start + inc) = k + 1 := ⟨_, (Nat.succ_pred_eq_of_pos hpos).symm⟩
      rw [hk] at h3 h4
      rw [Nat.succ_mul] at h4
      simp at h3
      omega

/-- A walk with a positive stride and a total body returns, given fuel for every
value below the bound, the bodies of `start, start + inc, ...` in order. -/
theorem walk_eq {β : Type} (bound inc : Nat) (body : Nat → Option β) (g : Nat → β)
    (hinc : 0 < inc) (hb : bound + inc ≤ 2 ^ 53)
    (hbody : ∀ v, v < bound → body v = some (g v)) :
    ∀ (fuel start : Nat), bound ≤ fuel + start →
      walk bound inc body fuel start
        = some ((List.range (steps bound inc start)).map fun i => g (start + i * inc)) := by
  intro fuel
  induction fuel with
  | zero =>
    intro start hf
    have hs : ¬ start < bound := by omega
    have h0 : steps bound inc start = 0 := by
      rcases Nat.eq_zero_or_pos (steps bound inc start) with h | h
      · exact h
      · have := (steps_lt_iff hinc 0).1 h
        omega
    simp [walk, hs, h0]
  | succ n ih =>
    intro start hf
    by_cases hs : start < bound
    · have hadv : advance start inc = start + inc := advance_exact (by omega)
      have hrec := ih (start + inc) (by omega)
      rw [walk, if_pos hs, hbody start hs, hadv, hrec, steps_succ hinc hs,
        List.range_succ_eq_map]
      simp only [List.map_cons, List.map_map, Nat.zero_mul, Nat.add_zero]
      congr 2
      apply List.map_congr_left
      intro i _
      simp only [Function.comp, Nat.succ_eq_add_one, Nat.succ_mul]
      congr 1
      omega
    · have h0 : steps bound inc start = 0 := by
        rcases Nat.eq_zero_or_pos (steps bound inc start) with h | h
        · exact h
        · have := (steps_lt_iff hinc 0).1 h
          omega
      simp [walk, hs, h0]

/-- With positive strides inside the exact range of `float64`, and fuel for every row
and column, the two loops return the grid `gridOf`. -/
theorem sample_eq {α : Type} (at_ : Nat → Nat → α) (fuel : Nat) (img : Image)
    (width height hInc wInc offset : Nat)
    (hs : strides img width height = some (hInc, wInc, offset))
    (h1 : 0 < hInc) (h2 : 0 < wInc)
    (bY : img.maxY + hInc ≤ 2 ^ 53) (bX : img.maxX + wInc ≤ 2 ^ 53)
    (fX : img.maxX ≤ fuel) (fY : img.maxY ≤ fuel) :
    sample at_ fuel img width height = some (gridOf at_ img hInc wInc offset) := by
  unfold sample gridOf
  rw [hs]
  simp only
  have inner : ∀ y, walk img.maxX wInc (fun x => some (at_ x y)) fuel offset
      = some ((List.range (steps img.maxX wInc offset)).map fun j => at_ (offset + j * wInc) y) :=
    fun y => walk_eq img.maxX wInc (fun x => some (at_ x y)) (fun x => at_ x y) h2 bX
      (fun _ _ => rfl) fuel offset (by omega)
  exact walk_eq img.maxY hInc _
    (fun y => (List.range (steps img.maxX wInc offset)).map fun j => at_ (offset + j * wInc) y)
    h1 bY (fun y _ => inner y) fuel offset (by omega)

/-- The strides when the target differs from the source on both axes. -/
theorem strides_differ (img : Image) (width height : Nat)
    (hw : 0 < width) (hh : 0 < height)
    (hne : height ≠ img.maxY) (wne : width ≠ img.maxX)
    (bX : img.maxX ≤ 2 ^ 52) (bY : img.maxY ≤ 2 ^ 52) :
    strides img width height
      = some (img.maxY / height, img.maxX / width, img.maxY / height / 2) := by
  have e1 : f64OfNat (img.maxY / height) = img.maxY / height :=
    f64OfNat_exact (le_trans (Nat.div_le_self _ _) (by omega))
  have e2 : f64OfNat (img.maxX / width) = img.maxX / width :=
    f64OfNat_exact (le_trans (Nat.div_le_self _ _) (by omega))
  unfold strides
  rw [if_pos ⟨hne, wne⟩, if_neg (by omega), if_neg (by omega)]
  simp only [e1, e2]

/-- The strides when the target equals the source on at least one axis. -/
theorem strides_same (img : Image) (width height : Nat)
    (h : height = img.maxY ∨ width = img.maxX) :
    strides img width height = some (1, 1, 0) := by
  unfold strides
  rw [if_neg]
  rintro ⟨h1, h2⟩
  rcases h with h | h
  · exact h1 h
  · exact h2 h

/-- For a target no larger than the source, both strides are at least `1` and at most
the bound of their axis, and the offset is below the row stride. -/
theorem strides_pos (img : Image) (width height : Nat)
    (hw : 0 < width) (hw1 : width ≤ img.maxX) (hh : 0 < height) (hh1 : height ≤ img.maxY)
    (bX : img.maxX ≤ 2 ^ 52) (bY : img.maxY ≤ 2 ^ 52) :
    ∃ hInc wInc offset, strides img width height = some (hInc, wInc, offset)
      ∧ 0 < hInc ∧ hInc ≤ img.maxY ∧ 0 < wInc ∧ wInc ≤ img.maxX ∧ offset < hInc := by
  by_cases hc : height ≠ img.maxY ∧ width ≠ img.maxX
  · refine ⟨_, _, _, strides_differ img width height hw hh hc.1 hc.2 bX bY, ?_, ?_, ?_, ?_, ?_⟩
    · exact Nat.div_pos hh1 hh
    · exact Nat.div_le_self _ _
    · exact Nat.div_pos hw1 hw
    · exact Nat.div_le_self _ _
    · have := Nat.div_pos hh1 hh
      omega
  · refine ⟨1, 1, 0, strides_same img width height ?_, ?_⟩
    · by_contra hn
      exact hc ⟨fun h => hn (Or.inl h), fun h => hn (Or.inr h)⟩
    · omega

/-- A target no larger than the source: `sample` returns the grid `gridOf` of its strides. -/
theorem sample_of_le {α : Type} (at_ : Nat → Nat → α) (fuel : Nat) (img : Image)
    (width height : Nat)
    (hw : 0 < width) (hw1 : width ≤ img.maxX) (hh : 0 < height) (hh1 : height ≤ img.maxY)
    (bX : img.maxX ≤ 2 ^ 52) (bY : img.maxY ≤ 2 ^ 52)
    (fX : img.maxX ≤ fuel) (fY : img.maxY ≤ fuel) :
    ∃ hInc wInc offset, strides img width height = some (hInc, wInc, offset)
      ∧ 0 < hInc ∧ hInc ≤ img.maxY ∧ 0 < wInc ∧ wInc ≤ img.maxX ∧ offset < hInc
      ∧ sample at_ fuel img width height = some (gridOf at_ img hInc wInc offset) := by
  obtain ⟨hInc, wInc, offset, hs, p1, p2, p3, p4, p5⟩ :=
    strides_pos img width height hw hw1 hh hh1 bX bY
  exact ⟨hInc, wInc, offset, hs, p1, p2, p3, p4, p5,
    sample_eq at_ fuel img width height hInc wInc offset hs p1 p3 (by omega) (by omega) fX fY⟩

theorem length_gridOf {α : Type} (at_ : Nat → Nat → α) (img : Image) (hInc wInc offset : Nat) :
    (gridOf at_ img hInc wInc offset).length = steps img.maxY hInc offset := by
  simp [gridOf]

theorem length_row_gridOf {α : Type} (at_ : Nat → Nat → α) (img : Image)
    (hInc wInc offset : Nat) (row : List α) (h : row ∈ gridOf at_ img hInc wInc offset) :
    row.length = steps img.maxX wInc offset := by
  simp only [gridOf, List.mem_map, List.mem_range] at h
  obtain ⟨i, _, rfl⟩ := h
  simp

/-- The number of steps over `inc * n` values from a start below `inc` is `n`. -/
theorem steps_of_dvd {inc n start : Nat} (hs : start < inc) :
    steps (inc * n) inc start = n := by
  have hinc : 0 < inc := by omega
  have key : ∀ i, i < steps (inc * n) inc start ↔ i < n := by
    intro i
    rw [steps_lt_iff hinc]
    constructor
    · intro h
      by_contra hge
      have h1 : n ≤ i := by omega
      have h2 : inc * n ≤ inc * i := Nat.mul_le_mul_left _ h1
      rw [Nat.mul_comm i inc] at h
      omega
    · intro h
      have h1 : i + 1 ≤ n := h
      have h2 : inc * (i + 1) ≤ inc * n := Nat.mul_le_mul_left _ h1
      rw [Nat.mul_add, Nat.mul_one] at h2
      rw [Nat.mul_comm i inc]
      omega
  apply Nat.le_antisymm
  · by_contra hlt
    have := (key n).1 (by omega)
    omega
  · by_contra hlt
    have h1 : steps (inc * n) inc start < n := by omega
    have := (key _).2 h1
    omega

/-- Mapping a function over the bodies of a walk maps it over the result. -/
theorem walk_map {β γ : Type} (f : β → γ) (bound inc : Nat) (body : Nat → Option β) :
    ∀ (fuel v : Nat), walk bound inc (fun u => (body u).map f) fuel v
      = (walk bound inc body fuel v).map (List.map f)
  | 0, v => by
    simp only [walk]
    split <;> rfl
  | fuel + 1, v => by
    simp only [walk]
    split
    · cases body v with
      | none => rfl
      | some b =>
        simp only [Option.map_some']
        rw [walk_map f bound inc body fuel (advance v inc)]
        cases walk bound inc body fuel (advance v inc) <;> rfl
    · rfl

/-- The cells of `getPixelInfo` are the cells of the pixels at `sampledCoords`, in the
same rows and the same order. -/
theorem getPixelInfo_eq_map (hexToXterm256 : String → String) (fuel : Nat) (img : Image)
    (width height : Nat) :
    getPixelInfo hexToXterm256 fuel img width height
      = (sampledCoords fuel img width height).map
          (List.map (List.map fun p => cellOf hexToXterm256 (img.colorAt p.1 p.2))) := by
  unfold getPixelInfo sampledCoords sample
  cases strides img width height with
  | none => rfl
  | some t =>
    obtain ⟨hInc, wInc, offset⟩ := t
    simp only
    have inner : ∀ y, walk img.maxX wInc
          (fun x => some (cellOf hexToXterm256 (img.colorAt x y))) fuel offset
        = (walk img.maxX wInc (fun x => some (x, y)) fuel offset).map
            (List.map fun p => cellOf hexToXterm256 (img.colorAt p.1 p.2)) := by
      intro y
      rw [← walk_map]
      rfl
    rw [← walk_map]
    congr 1
    funext y
    exact inner y

/-- A walk with the stride 0 that starts below its bound does not end. -/
theorem walk_stuck {β : Type} (bound : Nat) (body : Nat → Option β) (v : Nat)
    (hv : v < bound) (hb : v ≤ 2 ^ 53) : ∀ fuel, walk bound 0 body fuel v = none
  | 0 => by simp [walk, hv]
  | fuel + 1 => by
    have hadv : advance v 0 = v := advance_exact (by omega)
    rw [walk, if_pos hv, hadv, walk_stuck bound body v hv hb fuel]
    cases body v <;> rfl

/-- For a target higher than the image and of another width, the row stride is 0 and
`getPixelInfo` does not return, whatever the fuel. -/
theorem getPixelInfo_higher_target (hexToXterm256 : String → String) (img : Image)
    (width height : Nat) (pY : 0 < img.maxY) (hh : img.maxY < height)
    (hw : 0 < width) (wne : width ≠ img.maxX) (fuel : Nat) :
    getPixelInfo hexToXterm256 fuel img width height = none := by
  have hdiv : img.maxY / height = 0 := Nat.div_eq_of_lt hh
  have hs : strides img width height = some (0, f64OfNat (img.maxX / width), 0) := by
    unfold strides
    rw [if_pos ⟨by omega, wne⟩, if_neg (by omega), if_neg (by omega), hdiv]
    simp [f64OfNat]
  unfold getPixelInfo sample
  rw [hs]
  exact walk_stuck _ _ 0 pY (by omega) fuel

/-! ## The sampler: the properties of the specification -/

/-- C5: for a target size equal to the source size (bounds within the exact integer
range of `float64`, fuel for every row and column) `getPixelInfo` returns
`maxY` rows of `maxX` cells, the cell at row `y`, column `x` being computed from
the pixel `(x, y)`, and the coordinates it reads are the pixels in row-major order,
each once. -/
theorem getPixelInfo_identity (hexToXterm256 : String → String) (fuel : Nat) (img : Image)
    (bX : img.maxX < 2 ^ 53) (bY : img.maxY < 2 ^ 53)
    (fX : img.maxX ≤ fuel) (fY : img.maxY ≤ fuel) :
    getPixelInfo hexToXterm256 fuel img img.maxX img.maxY
        = some ((List.range img.maxY).map fun y =>
            (List.range img.maxX).map fun x => cellOf hexToXterm256 (img.colorAt x y))
      ∧ sampledCoords fuel img img.maxX img.maxY
        = some ((List.range img.maxY).map fun y =>
            (List.range img.maxX).map fun x => (x, y)) := by
  have hs : strides img img.maxX img.maxY = some (1, 1, 0) :=
    strides_same img _ _ (Or.inl rfl)
  have st : ∀ b, steps b 1 0 = b := by
    intro b
    simp [steps]
  constructor
  · unfold getPixelInfo
    rw [sample_eq _ fuel img _ _ 1 1 0 hs (by omega) (by omega) (by omega) (by omega) fX fY]
    simp [gridOf, st]
  · unfold sampledCoords
    rw [sample_eq _ fuel img _ _ 1 1 0 hs (by omega) (by omega) (by omega) (by omega) fX fY]
    simp [gridOf, st]

/-- C5, at the 4 x 4 test image. -/
theorem getPixelInfo_identity_witness :
    getPixelInfo id 4 img4 img4.maxX img4.maxY
        = some ((List.range img4.maxY).map fun y =>
            (List.range img4.maxX).map fun x => cellOf id (img4.colorAt x y))
      ∧ sampledCoords 4 img4 img4.maxX img4.maxY
        = some ((List.range img4.maxY).map fun y =>
            (List.range img4.maxX).map fun x => (x, y)) :=
  getPixelInfo_identity id 4 img4 (by decide) (by decide) (by decide) (by decide)

/-- C6, the code at the failing input: for the 4 x 4 image and the target 2 x 4, which
differs from the source in width only, the claim gives the strides
`(4 / 4, 4 / 2, 4 / 4 / 2) = (1, 2, 0)` and the columns `0, 2`; the guard of line 84
asks for a difference on both axes, so the strides are `(1, 1, 0)` and every row
samples the four columns `0, 1, 2, 3`. -/
theorem strides_width_only :
    strides img4 2 4 = some (1, 1, 0)
      ∧ (img4.maxY / 4, img4.maxX / 2, img4.maxY / 4 / 2) = (1, 2, 0)
      ∧ strides img4 2 4 ≠ some (img4.maxY / 4, img4.maxX / 2, img4.maxY / 4 / 2)
      ∧ sampledCoords 4 img4 2 4
        = some [[(0, 0), (1, 0), (2, 0), (3, 0)], [(0, 1), (1, 1), (2, 1), (3, 1)],
                [(0, 2), (1, 2), (2, 2), (3, 2)], [(0, 3), (1, 3), (2, 3), (3, 3)]] := by
  refine ⟨by decide, by decide, by decide, by decide⟩

/-- The path of `getPixelInfo` that computes strides: for a positive target size that
differs from the source in width and in height, the strides are `maxY / height` for
the rows and `maxX / width` for the columns and the offset is half the row stride;
when moreover the target is no larger than the source, the rows sampled are
`offset + i * row_stride` for exactly the `i` that keep it below `maxY`, and in each
row the columns sampled are `offset + j * col_stride` for exactly the `j` that keep
it below `maxX`. -/
theorem sampledCoords_both_differ (fuel : Nat) (img : Image) (width height : Nat)
    (hw : 0 < width) (hh : 0 < height)
    (hne : height ≠ img.maxY) (wne : width ≠ img.maxX)
    (bX : img.maxX ≤ 2 ^ 52) (bY : img.maxY ≤ 2 ^ 52)
    (fX : img.maxX ≤ fuel) (fY : img.maxY ≤ fuel) :
    strides img width height
        = some (img.maxY / height, img.maxX / width, img.maxY / height / 2)
      ∧ (width ≤ img.maxX → height ≤ img.maxY →
          ∃ nr nc, sampledCoords fuel img width height
              = some ((List.range nr).map fun i => (List.range nc).map fun j =>
                  (img.maxY / height / 2 + j * (img.maxX / width),
                   img.maxY / height / 2 + i * (img.maxY / height)))
            ∧ (∀ i, i < nr ↔ img.maxY / height / 2 + i * (img.maxY / height) < img.maxY)
            ∧ (∀ j, j < nc ↔ img.maxY / height / 2 + j * (img.maxX / width) < img.maxX)) := by
  have hs := strides_differ img width height hw hh hne wne bX bY
  refine ⟨hs, fun hw1 hh1 => ?_⟩
  have p1 : 0 < img.maxY / height := Nat.div_pos hh1 hh
  have p2 : 0 < img.maxX / width := Nat.div_pos hw1 hw
  have q1 : img.maxY / height ≤ img.maxY := Nat.div_le_self _ _
  have q2 : img.maxX / width ≤ img.maxX := Nat.div_le_self _ _
  refine ⟨steps img.maxY (img.maxY / height) (img.maxY / height / 2),
    steps img.maxX (img.maxX / width) (img.maxY / height / 2), ?_,
    fun i => steps_lt_iff p1 i, fun j => steps_lt_iff p2 j⟩
  unfold sampledCoords
  rw [sample_eq _ fuel img _ _ _ _ _ hs p1 p2 (by omega) (by omega) fX fY]
  rfl

/-- C7, refuted as stated: the target 2 x 2 divides the 4 x 16 image on both axes, yet
the offset `16 / 2 / 2 = 4` is not below the image width and both rows come out
empty; the target 2 x 4 divides the 4 x 4 image on both axes, yet the rows have
four cells. -/
theorem getPixelInfo_dvd_counterexample :
    (2 ∣ img4x16.maxX ∧ 2 ∣ img4x16.maxY ∧ getPixelInfo id 16 img4x16 2 2 = some [[], []])
      ∧ (2 ∣ img4.maxX ∧ 4 ∣ img4.maxY ∧
          ∃ grid, getPixelInfo id 4 img4 2 4 = some grid ∧ ∀ row ∈ grid, row.length = 4) := by
  refine ⟨⟨by decide, by decide, by decide⟩, by decide, by decide, _, rfl, by decide⟩

/-- C7, amended: for an image of positive size and a positive target size that divides
the source on both axes and either equals the source on both axes, or differs from
it on both axes with half the row stride below the column stride, `getPixelInfo`
returns exactly `height` rows of exactly `width` cells. -/
theorem getPixelInfo_dvd (hexToXterm256 : String → String) (fuel : Nat) (img : Image)
    (width height : Nat)
    (hw : 0 < width) (hh : 0 < height) (pX : 0 < img.maxX) (pY : 0 < img.maxY)
    (dw : width ∣ img.maxX) (dh : height ∣ img.maxY)
    (shape : (width = img.maxX ∧ height = img.maxY)
      ∨ (width ≠ img.maxX ∧ height ≠ img.maxY ∧ img.maxY / height / 2 < img.maxX / width))
    (bX : img.maxX ≤ 2 ^ 52) (bY : img.maxY ≤ 2 ^ 52)
    (fX : img.maxX ≤ fuel) (fY : img.maxY ≤ fuel) :
    ∃ grid, getPixelInfo hexToXterm256 fuel img width height = some grid
      ∧ grid.length = height ∧ ∀ row ∈ grid, row.length = width := by
  have hw1 : width ≤ img.maxX := Nat.le_of_dvd pX dw
  have hh1 : height ≤ img.maxY := Nat.le_of_dvd pY dh
  have eY : img.maxY = img.maxY / height * height := (Nat.div_mul_cancel dh).symm
  have eX : img.maxX = img.maxX / width * width := (Nat.div_mul_cancel dw).symm
  have p1 : 0 < img.maxY / height := Nat.div_pos hh1 hh
  have p2 : 0 < img.maxX / width := Nat.div_pos hw1 hw
  have q1 : img.maxY / height ≤ img.maxY := Nat.div_le_self _ _
  have q2 : img.maxX / width ≤ img.maxX := Nat.div_le_self _ _
  rcases shape with ⟨e1, e2⟩ | ⟨n1, n2, hoff⟩
  · have hs : strides img width height = some (1, 1, 0) :=
      strides_same img _ _ (Or.inl e2)
    refine ⟨_, sample_eq _ fuel img _ _ 1 1 0 hs (by omega) (by omega) (by omega) (by omega)
      fX fY, ?_, ?_⟩
    · rw [length_gridOf]
      have := @steps_of_dvd 1 img.maxY 0 (by omega)
      rw [Nat.one_mul] at this
      rw [this, e2]
    · intro row hrow
      rw [length_row_gridOf _ _ _ _ _ row hrow]
      have := @steps_of_dvd 1 img.maxX 0 (by omega)
      rw [Nat.one_mul] at this
      rw [this, e1]
  · have hs := strides_differ img width height hw hh n2 n1 bX bY
    refine ⟨_, sample_eq _ fuel img _ _ _ _ _ hs p1 p2 (by omega) (by omega) fX fY, ?_, ?_⟩
    · rw [length_gridOf]
      have := @steps_of_dvd (img.maxY / height) height (img.maxY / height / 2) (by omega)
      rw [← eY] at this
      exact this
    · intro row hrow
      rw [length_row_gridOf _ _ _ _ _ row hrow]
      have := @steps_of_dvd (img.maxX / width) width (img.maxY / height / 2) hoff
      rw [← eX] at this
      exact this

/-- C7 amended, at the 4 x 4 image and the target 2 x 2. -/
theorem getPixelInfo_dvd_witness :
    ∃ grid, getPixelInfo id 4 img4 2 2 = some grid
      ∧ grid.length = 2 ∧ ∀ row ∈ grid, row.length = 2 :=
  getPixelInfo_dvd id 4 img4 2 2 (by decide) (by decide) (by decide) (by decide)
    (by decide) (by decide) (Or.inr (by decide)) (by decide) (by decide) (by decide) (by decide)

/-- C8: for a target size between 1 and the source size on each axis, `getPixelInfo`
returns, and every coordinate `(x, y)` at which it reads the image has `x < maxX` and
`y < maxY` (coordinates are natural numbers, so `0 ≤ x` and `0 ≤ y`). -/
theorem sampledCoords_in_bounds (fuel : Nat) (img : Image) (width height : Nat)
    (hw : 0 < width) (hw1 : width ≤ img.maxX) (hh : 0 < height) (hh1 : height ≤ img.maxY)
    (bX : img.maxX ≤ 2 ^ 52) (bY : img.maxY ≤ 2 ^ 52)
    (fX : img.maxX ≤ fuel) (fY : img.maxY ≤ fuel) :
    ∃ grid, sampledCoords fuel img width height = some grid
      ∧ ∀ row ∈ grid, ∀ p ∈ row, 0 ≤ p.1 ∧ p.1 < img.maxX ∧ 0 ≤ p.2 ∧ p.2 < img.maxY := by
  obtain ⟨hInc, wInc, offset, _, p1, _, p3, _, _, hsample⟩ :=
    sample_of_le (fun x y => (x, y)) fuel img width height hw hw1 hh hh1 bX bY fX fY
  refine ⟨_, hsample, ?_⟩
  intro row hrow p hp
  simp only [gridOf, List.mem_map, List.mem_range] at hrow
  obtain ⟨i, hi, rfl⟩ := hrow
  simp only [List.mem_map, List.mem_range] at hp
  obtain ⟨j, hj, rfl⟩ := hp
  exact ⟨Nat.zero_le _, (steps_lt_iff p3 j).1 hj, Nat.zero_le _, (steps_lt_iff p1 i).1 hi⟩

/-- C8, at the 4 x 16 image and the target 2 x 4. -/
theorem sampledCoords_in_bounds_witness :
    ∃ grid, sampledCoords 16 img4x16 2 4 = some grid
      ∧ ∀ row ∈ grid, ∀ p ∈ row,
          0 ≤ p.1 ∧ p.1 < img4x16.maxX ∧ 0 ≤ p.2 ∧ p.2 < img4x16.maxY :=
  sampledCoords_in_bounds 16 img4x16 2 4 (by decide) (by decide) (by decide) (by decide)
    (by decide) (by decide) (by decide) (by decide)

/-- C9: for an image of positive size and a target size between 1 and the source size
on each axis, both strides of `getPixelInfo` are at least 1, each loop counter
strictly grows while it is below its bound, and `getPixelInfo` returns a grid of at
most `maxY` rows of at most `maxX` cells each. -/
theorem getPixelInfo_terminates (hexToXterm256 : String → String) (fuel : Nat) (img : Image)
    (width height : Nat)
    (hw : 1 ≤ width) (hw1 : width ≤ img.maxX) (hh : 1 ≤ height) (hh1 : height ≤ img.maxY)
    (bX : img.maxX ≤ 2 ^ 52) (bY : img.maxY ≤ 2 ^ 52)
    (fX : img.maxX ≤ fuel) (fY : img.maxY ≤ fuel) :
    ∃ hInc wInc offset grid, strides img width height = some (hInc, wInc, offset)
      ∧ 1 ≤ hInc ∧ 1 ≤ wInc
      ∧ (∀ y, y < img.maxY → y < advance y hInc)
      ∧ (∀ x, x < img.maxX → x < advance x wInc)
      ∧ getPixelInfo hexToXterm256 fuel img width height = some grid
      ∧ grid.length ≤ img.maxY ∧ ∀ row ∈ grid, row.length ≤ img.maxX := by
  obtain ⟨hInc, wInc, offset, hs, p1, p2, p3, p4, _, hsample⟩ :=
    sample_of_le (fun x y => cellOf hexToXterm256 (img.colorAt x y)) fuel img width height
      hw hw1 hh hh1 bX bY fX fY
  refine ⟨hInc, wInc, offset, _, hs, p1, p3, ?_, ?_, hsample, ?_, ?_⟩
  · intro y hy
    rw [advance_exact (by omega)]
    omega
  · intro x hx
    rw [advance_exact (by omega)]
    omega
  · rw [length_gridOf]
    exact steps_le_bound p1
  · intro row hrow
    rw [length_row_gridOf _ _ _ _ _ row hrow]
    exact steps_le_bound p3

/-- C9, at the 4 x 16 image and the target 3 x 5. -/
theorem getPixelInfo_terminates_witness :
    ∃ hInc wInc offset grid, strides img4x16 3 5 = some (hInc, wInc, offset)
      ∧ 1 ≤ hInc ∧ 1 ≤ wInc
      ∧ (∀ y, y < img4x16.maxY → y < advance y hInc)
      ∧ (∀ x, x < img4x16.maxX → x < advance x wInc)
      ∧ getPixelInfo id 16 img4x16 3 5 = some grid
      ∧ grid.length ≤ img4x16.maxY ∧ ∀ row ∈ grid, row.length ≤ img4x16.maxX :=
  getPixelInfo_terminates id 16 img4x16 3 5 (by decide) (by decide) (by decide) (by decide)
    (by decide) (by decide) (by decide) (by decide)

/-! ## The cell of a pixel and the missing file -/

/-- What `cellOf` does with the alpha that `RGBA()` returns (16 bits): the empty cell at
or below `0x30`, else the palette token of the low bytes of red, green and blue. -/
theorem cellOf_eq (hexToXterm256 : String → String) (c : RGBA) :
    (c.a ≤ 0x30 → cellOf hexToXterm256 c = "")
      ∧ (0x30 < c.a → cellOf hexToXterm256 c = hexToXterm256 (hexOf c)) := by
  unfold cellOf
  constructor
  · intro h
    rw [if_neg (by omega)]
  · intro h
    rw [if_pos h]

/-- C4, the code at the failing input: the 8-bit pixel `NRGBA{0xff, 0, 0, 0x20}` has alpha
`0x20` on the 0-255 scale, at or below `0x30`, but `RGBA()` returns alpha `0x2020`, so
`cellOf` takes the palette branch, with the hexadecimal string `200000`, where the
claim asks for the empty cell. -/
theorem cellOf_faint_pixel (hexToXterm256 : String → String) :
    alpha8 (nrgbaRGBA 0xff 0 0 0x20) = 0x20
      ∧ (nrgbaRGBA 0xff 0 0 0x20).a = 0x2020
      ∧ cellOf hexToXterm256 (nrgbaRGBA 0xff 0 0 0x20) = hexToXterm256 "200000" := by
  refine ⟨by decide, by decide, ?_⟩
  rw [(cellOf_eq hexToXterm256 _).2 (by decide)]
  congr 1

/-- C1, the code at the failing input: when `pathname.DoesExist` answers no, `bootstrap`
returns the empty name, `nil` pixels, a `nil` legend and the `nil` error. -/
theorem bootstrap_missing_file (fuel : Nat) (filename name : List Char) :
    bootstrap emptyDisk fuel filename name
      = some { name := [], pixels := [], legend := [], err := none } := by
  rfl

/-- Whenever `pathname.DoesExist` answers no, `bootstrap` returns the `nil` error. -/
theorem bootstrap_of_missing (env : Env) (fuel : Nat) (filename name : List Char)
    (h : env.doesExist filename = false) :
    bootstrap env fuel filename name
      = some { name := [], pixels := [], legend := [], err := none } := by
  unfold bootstrap
  simp [h]

/-- Once the image is decoded, `bootstrap` hands the size settled by `resolve` to
`getPixelInfo` and returns the name settled by `resolve`, an empty legend and the
`nil` error. -/
theorem bootstrap_of_decoded (env : Env) (fuel : Nat) (filename name : List Char)
    (imgFile : Nat) (img : Image) (h1 : env.doesExist filename = true)
    (h2 : env.openFile (env.expandPath filename) = .ok imgFile)
    (h3 : env.decode imgFile = .ok img) :
    bootstrap env fuel filename name
      = (getPixelInfo env.hexToXterm256 fuel img
          (resolve (env.expandPath filename) name img).width
          (resolve (env.expandPath filename) name img).height).map
        (fun pixels => { name := (resolve (env.expandPath filename) name img).name,
                         pixels := pixels, legend := [], err := none }) := by
  unfold bootstrap
  simp only [h1, h2, h3, Bool.not_true, Bool.false_eq_true, if_false]
  cases getPixelInfo env.hexToXterm256 fuel img
      (resolve (env.expandPath filename) name img).width
      (resolve (env.expandPath filename) name img).height <;> rfl

/-! ## `validate` -/

theorem onFlag_action (cond : Bool) (body : CliState → CliState) (s : CliState)
    (h : ∀ t, (body t).action = t.action) : (onFlag cond body s).action = s.action := by
  unfold onFlag
  split
  · exact h s
  · rfl

theorem applyConfig_action (flags : CliFlags) (s : CliState) :
    (applyConfig flags s).action = s.action := by
  unfold applyConfig
  simp only [onFlag_action, CliState.set, implies_true]

/-- The checks of the arguments keep the action and end, if at all, with
`ExtraArguments`. -/
theorem checkArgs_final (args : List String) (s : CliState) :
    (checkArgs args s).final.action = s.action
      ∧ ∀ st, checkArgs args s ≠ .error (ExitStatus.InvalidOption, st) := by
  unfold checkArgs
  split <;> simp [Run.final, CliState.set]

/-- The checks of the actions from the action `"draw"`, by the number of flags set. -/
theorem checkActions_eq (flags : CliFlags) (s : CliState) (hs : s.action = "draw") :
    (2 ≤ (setActions flags).length →
        ∃ st, checkActions flags s = .error (ExitStatus.InvalidOption, st))
      ∧ (∀ a, setActions flags = [a] → checkActions flags s = .ok { s with action := a })
      ∧ (setActions flags = [] → checkActions flags s = .ok s) := by
  unfold checkActions setActions
  generalize decide (flags.generate.length > 0) = g
  cases s with
  | mk action config =>
    simp only at hs
    subst hs
    cases flags.cache <;> cases flags.demo <;> cases g <;> cases flags.list <;>
      cases flags.save <;> cases flags.update <;>
      simp [actionStep, bind, Except.bind]

/-- C10: from the action `"draw"`, `validate` ends in the usage error `InvalidOption`
exactly when at least two of the six action flags are set; with exactly one set the
action it ends with is the action of that flag, and with none set it is `"draw"`. -/
theorem validate_actions (flags : CliFlags) (args : List String) (s : CliState)
    (hs : s.action = "draw") :
    ((∃ st, validate flags args s = .error (ExitStatus.InvalidOption, st))
        ↔ 2 ≤ (setActions flags).length)
      ∧ (∀ a, setActions flags = [a] → (validate flags args s).final.action = a)
      ∧ (setActions flags = [] → (validate flags args s).final.action = "draw") := by
  obtain ⟨many, one, zero⟩ := checkActions_eq flags s hs
  have okCase : ∀ s1, checkActions flags s = .ok s1 →
      (validate flags args s).final.action = s1.action
        ∧ ∀ st, validate flags args s ≠ .error (ExitStatus.InvalidOption, st) := by
    intro s1 h1
    have hv : validate flags args s = checkArgs args (applyConfig flags s1) := by
      simp [validate, h1, bind, Except.bind]
    rw [hv]
    obtain ⟨c1, c2⟩ := checkArgs_final args (applyConfig flags s1)
    exact ⟨by rw [c1, applyConfig_action], c2⟩
  refine ⟨⟨?_, ?_⟩, ?_, ?_⟩
  · rintro ⟨st, hst⟩
    by_contra hlt
    rcases hl : setActions flags with _ | ⟨a, _ | ⟨b, l⟩⟩
    · exact (okCase _ (zero hl)).2 st hst
    · exact (okCase _ (one a hl)).2 st hst
    · rw [hl] at hlt
      simp at hlt
  · intro h2
    obtain ⟨st, hst⟩ := many h2
    exact ⟨st, by simp [validate, hst, bind, Except.bind]⟩
  · intro a ha
    exact (okCase _ (one a ha)).1
  · intro h0
    rw [(okCase _ (zero h0)).1, hs]

/-- C10, at the flags `--demo --ls` with no argument: two action flags are set. -/
theorem validate_actions_witness :
    ((∃ st, validate { noFlags with demo := true, list := true } []
          { action := "draw", config := [] } = .error (ExitStatus.InvalidOption, st))
        ↔ 2 ≤ (setActions { noFlags with demo := true, list := true }).length)
      ∧ (∀ a, setActions { noFlags with demo := true, list := true } = [a] →
          (validate { noFlags with demo := true, list := true } []
            { action := "draw", config := [] }).final.action = a)
      ∧ (setActions { noFlags with demo := true, list := true } = [] →
          (validate { noFlags with demo := true, list := true } []
            { action := "draw", config := [] }).final.action = "draw") :=
  validate_actions { noFlags with demo := true, list := true } []
    { action := "draw", config := [] } rfl

/-! ## The filename pattern: lemmas -/

theorem expect_eq_some {c : Char} {s r : List Char} : expect c s = some r ↔ s = c :: r := by
  cases s with
  | nil => simp [expect]
  | cons d t =>
    simp only [expect]
    by_cases h : d = c
    · simp [h]
    · simp [h]

theorem takeWhile_digits {w : List Char} (hw : ∀ c ∈ w, c.isDigit = true) (c : Char)
    (hc : c.isDigit = false) (t : List Char) :
    (w ++ c :: t).takeWhile Char.isDigit = w := by
  rw [List.takeWhile_append_of_pos hw, List.takeWhile_cons_of_neg (by simp [hc])]
  simp

theorem dropWhile_digits {w : List Char} (hw : ∀ c ∈ w, c.isDigit = true) (c : Char)
    (hc : c.isDigit = false) (t : List Char) :
    (w ++ c :: t).dropWhile Char.isDigit = c :: t := by
  rw [List.dropWhile_append_of_pos hw, List.dropWhile_cons_of_neg (by simp [hc])]

/-- The pattern `_(\d+)x(\d+)\.` matches the text `_<w>x<h>.` with the groups `w` and `h`. -/
theorem dimsThenDot_complete {w h : List Char} (hw : Digits w) (hh : Digits h)
    (r : List Char) : dimsThenDot (dimsDotExt w h r) = some (w, h, r) := by
  unfold dimsThenDot dimsDotExt
  have e1 : expect '_' ('_' :: (w ++ 'x' :: (h ++ '.' :: r))) = some (w ++ 'x' :: (h ++ '.' :: r)) :=
    expect_eq_some.2 rfl
  rw [e1]
  simp only
  rw [takeWhile_digits hw.2 'x' (by decide), dropWhile_digits hw.2 'x' (by decide),
    if_neg hw.1]
  have e2 : expect 'x' ('x' :: (h ++ '.' :: r)) = some (h ++ '.' :: r) := expect_eq_some.2 rfl
  rw [e2]
  simp only
  rw [takeWhile_digits hh.2 '.' (by decide), dropWhile_digits hh.2 '.' (by decide),
    if_neg hh.1]
  have e3 : expect '.' ('.' :: r) = some r := expect_eq_some.2 rfl
  rw [e3]

/-- What the pattern `_(\d+)x(\d+)\.` matched is the text `_<w>x<h>.` of its groups. -/
theorem dimsThenDot_sound {s w h r : List Char} (hm : dimsThenDot s = some (w, h, r)) :
    s = dimsDotExt w h r ∧ Digits w ∧ Digits h := by
  unfold dimsThenDot at hm
  cases e1 : expect '_' s with
  | none => simp [e1] at hm
  | some t =>
    rw [e1] at hm
    simp only at hm
    by_cases c1 : t.takeWhile Char.isDigit = []
    · simp [c1] at hm
    · rw [if_neg c1] at hm
      cases e2 : expect 'x' (t.dropWhile Char.isDigit) with
      | none => simp [e2] at hm
      | some u =>
        rw [e2] at hm
        simp only at hm
        by_cases c2 : u.takeWhile Char.isDigit = []
        · simp [c2] at hm
        · rw [if_neg c2] at hm
          cases e3 : expect '.' (u.dropWhile Char.isDigit) with
          | none => simp [e3] at hm
          | some r1 =>
            rw [e3] at hm
            simp only [Option.some.injEq, Prod.mk.injEq] at hm
            obtain ⟨rfl, rfl, rfl⟩ := hm
            have h1 := expect_eq_some.1 e1
            have h2 := expect_eq_some.1 e2
            have h3 := expect_eq_some.1 e3
            refine ⟨?_, ⟨c1, fun c hc => List.mem_takeWhile_imp hc⟩,
              ⟨c2, fun c hc => List.mem_takeWhile_imp hc⟩⟩
            unfold dimsDotExt
            rw [h1, ← h3, List.takeWhile_append_dropWhile, ← h2,
              List.takeWhile_append_dropWhile]

theorem digit_ne {c d : Char} (hc : c.isDigit = true) (hd : d.isDigit = false) : c ≠ d := by
  intro h
  rw [h, hd] at hc
  exact Bool.false_ne_true hc

theorem not_mem_digits {w : List Char} (hw : Digits w) {d : Char} (hd : d.isDigit = false) :
    d ∉ w :=
  fun h => digit_ne (hw.2 d h) hd rfl

/-- The text `_<w>x<h>` has no separator and no dot. -/
theorem dims_plain {w h : List Char} (hw : Digits w) (hh : Digits h) :
    '/' ∉ '_' :: (w ++ 'x' :: h) ∧ '.' ∉ '_' :: (w ++ 'x' :: h) := by
  have a1 : '/' ∉ w := not_mem_digits hw (by decide)
  have a2 : '/' ∉ h := not_mem_digits hh (by decide)
  have a3 : '.' ∉ w := not_mem_digits hw (by decide)
  have a4 : '.' ∉ h := not_mem_digits hh (by decide)
  constructor
  · simp only [List.mem_cons, List.mem_append, not_or]
    exact ⟨by decide, a1, by decide, a2⟩
  · simp only [List.mem_cons, List.mem_append, not_or]
    exact ⟨by decide, a3, by decide, a4⟩

/-- The first dot of a text splits it in one way only. -/
theorem first_dot_unique : ∀ {a a1 b b1 : List Char}, a ++ '.' :: b = a1 ++ '.' :: b1 →
    '.' ∉ a → '.' ∉ a1 → a = a1 ∧ b = b1
  | [], [], _, _, h, _, _ => by simpa using h
  | [], c :: a1, _, _, h, _, h2 => by
    simp only [List.nil_append, List.cons_append, List.cons.injEq] at h
    exact absurd (h.1 ▸ List.mem_cons_self _ _) h2
  | c :: a, [], _, _, h, h1, _ => by
    simp only [List.nil_append, List.cons_append, List.cons.injEq] at h
    exact absurd (h.1 ▸ List.mem_cons_self _ _) h1
  | c :: a, d :: a1, b, b1, h, h1, h2 => by
    simp only [List.cons_append, List.cons.injEq] at h
    have ih := first_dot_unique h.2 (fun m => h1 (List.mem_cons_of_mem _ m))
      (fun m => h2 (List.mem_cons_of_mem _ m))
    exact ⟨by rw [h.1, ih.1], ih.2⟩

theorem suffixAt_dims {w h : List Char} (hw : Digits w) (hh : Digits h) (r : List Char) :
    suffixAt (dimsDotExt w h r) = some (w, h, r) := by
  unfold suffixAt
  rw [dimsThenDot_complete hw hh]

theorem suffixAt_dot (r : List Char) : suffixAt ('.' :: r) = some ([], [], r) := by
  have h1 : dimsThenDot ('.' :: r) = none := by
    unfold dimsThenDot
    have : expect '_' ('.' :: r) = none := by
      simp [expect]
    rw [this]
  unfold suffixAt
  rw [h1]
  simp [expect]

/-- What the part `(_(\d+)x(\d+))?\.` matched: a text without separator or dot, which is
empty or `_<w>x<h>`, then the dot. -/
theorem suffixAt_sound {s w h r : List Char} (hm : suffixAt s = some (w, h, r)) :
    ∃ mid, s = mid ++ '.' :: r ∧ '/' ∉ mid ∧ '.' ∉ mid
      ∧ ((mid = [] ∧ w = [] ∧ h = []) ∨ (mid = '_' :: (w ++ 'x' :: h) ∧ Digits w ∧ Digits h)) := by
  unfold suffixAt at hm
  cases e1 : dimsThenDot s with
  | some m =>
    rw [e1] at hm
    simp only [Option.some.injEq] at hm
    subst hm
    obtain ⟨hs, hw, hh⟩ := dimsThenDot_sound e1
    refine ⟨'_' :: (w ++ 'x' :: h), ?_, (dims_plain hw hh).1, (dims_plain hw hh).2,
      Or.inr ⟨rfl, hw, hh⟩⟩
    rw [hs]
    simp [dimsDotExt]
  | none =>
    rw [e1] at hm
    cases e2 : expect '.' s with
    | none => simp [e2] at hm
    | some r1 =>
      rw [e2] at hm
      simp only [Option.some.injEq, Prod.mk.injEq] at hm
      obtain ⟨rfl, rfl, rfl⟩ := hm
      exact ⟨[], by simpa using expect_eq_some.1 e2, by simp, by simp, Or.inl ⟨rfl, rfl, rfl⟩⟩

/-- Inside a name that is followed by `_<w>x<h>.`, the rest of the pattern does not match
earlier. -/
theorem suffixAt_early_dims {q w h : List Char} (hq : q ≠ []) (hdot : '.' ∉ q)
    (hw : Digits w) (hh : Digits h) (ext : List Char) :
    suffixAt (q ++ dimsDotExt w h ext) = none := by
  cases e : suffixAt (q ++ dimsDotExt w h ext) with
  | none => rfl
  | some m =>
    exfalso
    obtain ⟨w1, h1, r1⟩ := m
    obtain ⟨mid, hs, _, hmid, hcase⟩ := suffixAt_sound e
    have hs1 : (q ++ '_' :: (w ++ 'x' :: h)) ++ '.' :: ext = mid ++ '.' :: r1 := by
      rw [← hs]
      simp [dimsDotExt]
    have hnd : '.' ∉ q ++ '_' :: (w ++ 'x' :: h) := by
      rw [List.mem_append, not_or]
      exact ⟨hdot, (dims_plain hw hh).2⟩
    obtain ⟨hmid_eq, _⟩ := first_dot_unique hs1 hnd hmid
    rcases hcase with ⟨h0, _, _⟩ | ⟨hd, hw1, hh1⟩
    · rw [h0] at hmid_eq
      cases q with
      | nil => exact hq rfl
      | cons c q1 => simp at hmid_eq
    · rw [hd] at hmid_eq
      cases q with
      | nil => exact hq rfl
      | cons c q1 =>
        simp only [List.cons_append, List.cons.injEq] at hmid_eq
        have hmem : '_' ∈ w1 ++ 'x' :: h1 := by
          rw [← hmid_eq.2]
          simp
        rw [List.mem_append, List.mem_cons] at hmem
        rcases hmem with hm | hm | hm
        · exact not_mem_digits hw1 (by decide) hm
        · exact absurd hm (by decide)
        · exact not_mem_digits hh1 (by decide) hm

/-- Inside a name that does not end with dimensions and is followed by the dot, the rest
of the pattern does not match earlier. -/
theorem suffixAt_early_dot {p q : List Char} (hq : q ≠ []) (hdot : '.' ∉ q)
    (hno : NoDims (p ++ q)) (ext : List Char) :
    suffixAt (q ++ '.' :: ext) = none := by
  cases e : suffixAt (q ++ '.' :: ext) with
  | none => rfl
  | some m =>
    exfalso
    obtain ⟨w1, h1, r1⟩ := m
    obtain ⟨mid, hs, _, hmid, hcase⟩ := suffixAt_sound e
    obtain ⟨hmid_eq, _⟩ := first_dot_unique hs hdot hmid
    rcases hcase with ⟨h0, _, _⟩ | ⟨hd, hw1, hh1⟩
    · exact hq (hmid_eq.trans h0)
    · exact hno p w1 h1 hw1 hh1 (by rw [hmid_eq, hd])

/-- The lazy group runs over the name `q` when the rest of the pattern matches after it
and nowhere inside it. -/
theorem matchHere_run (tail w h r : List Char) (hfin : suffixAt tail = some (w, h, r)) :
    ∀ (q acc : List Char), '/' ∉ q →
      (∀ q1 q2, q = q1 ++ q2 → q2 ≠ [] → suffixAt (q2 ++ tail) = none) →
      matchHere acc (q ++ tail) = some ⟨acc ++ q, w, h, r⟩
  | [], acc, _, _ => by
    cases tail with
    | nil => simp [suffixAt, dimsThenDot, expect] at hfin
    | cons c t =>
      rw [List.nil_append, matchHere, hfin]
      simp
  | c :: q, acc, hs, hearly => by
    have h1 : suffixAt (c :: (q ++ tail)) = none :=
      hearly [] (c :: q) rfl (by simp)
    have hc : c ≠ '/' := fun e => hs (e ▸ List.mem_cons_self _ _)
    rw [List.cons_append, matchHere, h1]
    simp only
    rw [if_neg hc, matchHere_run tail w h r hfin q (acc ++ [c])
      (fun m => hs (List.mem_cons_of_mem _ m))
      (fun q1 q2 e => hearly (c :: q1) q2 (by rw [e]; rfl))]
    simp

/-- The match at the start of a name followed by a text the rest of the pattern matches:
group 1 is the name. -/
theorem matchAt_name {name tail w h r : List Char} (hn : name ≠ []) (hs : '/' ∉ name)
    (hfin : suffixAt tail = some (w, h, r))
    (hearly : ∀ q1 q2, name = q1 ++ q2 → q1 ≠ [] → q2 ≠ [] → suffixAt (q2 ++ tail) = none) :
    matchAt (name ++ tail) = some ⟨name, w, h, r⟩ := by
  cases name with
  | nil => exact absurd rfl hn
  | cons c q =>
    have hc : c ≠ '/' := fun e => hs (e ▸ List.mem_cons_self _ _)
    rw [List.cons_append, matchAt, if_neg hc,
      matchHere_run tail w h r hfin q [c] (fun m => hs (List.mem_cons_of_mem _ m))
        (fun q1 q2 e => hearly (c :: q1) q2 (by rw [e]; rfl) (by simp))]
    rfl

/-- What the lazy group and the rest of the pattern matched: no separator up to the dot
that ends the match. -/
theorem matchHere_sound : ∀ (s acc : List Char) (m : Submatch), matchHere acc s = some m →
    ∃ pre, s = pre ++ '.' :: m.rest ∧ '/' ∉ pre
  | [], acc, m, hm => by simp [matchHere] at hm
  | c :: s1, acc, m, hm => by
    rw [matchHere] at hm
    cases e : suffixAt (c :: s1) with
    | some t =>
      obtain ⟨w, h, r⟩ := t
      rw [e] at hm
      simp only [Option.some.injEq] at hm
      subst hm
      obtain ⟨mid, hs, hmid, _, _⟩ := suffixAt_sound e
      exact ⟨mid, hs, hmid⟩
    | none =>
      rw [e] at hm
      simp only at hm
      by_cases hc : c = '/'
      · simp [hc] at hm
      · rw [if_neg hc] at hm
        obtain ⟨pre, hs, hpre⟩ := matchHere_sound s1 (acc ++ [c]) m hm
        refine ⟨c :: pre, by rw [hs]; rfl, ?_⟩
        simp only [List.mem_cons, not_or]
        exact ⟨fun e => hc e.symm, hpre⟩

/-- A match takes a text without separator, not empty, and the dot after it. -/
theorem matchAt_sound {s : List Char} {m : Submatch} (hm : matchAt s = some m) :
    ∃ pre, s = pre ++ '.' :: m.rest ∧ '/' ∉ pre ∧ pre ≠ [] := by
  cases s with
  | nil => simp [matchAt] at hm
  | cons c s1 =>
    rw [matchAt] at hm
    by_cases hc : c = '/'
    · simp [hc] at hm
    · rw [if_neg hc] at hm
      obtain ⟨pre, hs, hpre⟩ := matchHere_sound s1 [c] m hm
      refine ⟨c :: pre, by rw [hs]; rfl, ?_, by simp⟩
      simp only [List.mem_cons, not_or]
      exact ⟨fun e => hc e.symm, hpre⟩

/-- No match starts in a text without a dot. -/
theorem matchAt_no_dot {s : List Char} (h : '.' ∉ s) : matchAt s = none := by
  cases e : matchAt s with
  | none => rfl
  | some m =>
    obtain ⟨pre, hs, _, _⟩ := matchAt_sound e
    exact absurd (by rw [hs]; simp) h

theorem findAllAux_no_dot : ∀ (n : Nat) (s : List Char), '.' ∉ s → findAllAux n s = []
  | 0, _, _ => by simp [findAllAux]
  | _ + 1, [], _ => by simp [findAllAux]
  | n + 1, c :: s, h => by
    rw [findAllAux, matchAt_no_dot h]
    exact findAllAux_no_dot n s (fun m => h (List.mem_cons_of_mem _ m))

/-- A match that starts in the directory part ends in it: what is left is a shorter
directory part, not empty, followed by the same text. -/
theorem matchAt_in_dir {d t : List Char} {m : Submatch} (hd : d.getLast? = some '/')
    (hm : matchAt (d ++ t) = some m) :
    ∃ d1, m.rest = d1 ++ t ∧ d1.getLast? = some '/' ∧ d1.length < d.length ∧ '.' ∈ d := by
  obtain ⟨pre, hs, hpre, hne⟩ := matchAt_sound hm
  have hmem : '/' ∈ d := List.mem_of_getLast?_eq_some hd
  rcases List.append_eq_append_iff.1 hs with ⟨a1, h1, _⟩ | ⟨c1, h1, h2⟩
  · exact absurd (by rw [h1]; exact List.mem_append_left _ hmem) hpre
  · cases c1 with
    | nil =>
      rw [List.append_nil] at h1
      exact absurd (h1 ▸ hmem) hpre
    | cons x c2 =>
      simp only [List.cons_append, List.cons.injEq] at h2
      obtain ⟨hx, h3⟩ := h2
      subst hx
      have hc2 : c2 ≠ [] := by
        intro e
        rw [e] at h1
        rw [h1, List.getLast?_append_of_ne_nil _ (by simp)] at hd
        simp at hd
      refine ⟨c2, h3, ?_, ?_, by rw [h1]; simp⟩
      · rw [h1, List.append_cons, List.getLast?_append_of_ne_nil _ hc2] at hd
        exact hd
      · rw [h1]
        simp only [List.length_append, List.length_cons]
        have := List.length_pos.2 hne
        omega

/-- No match starts in a directory part without a dot. -/
theorem matchAt_dir_none {d t : List Char} (hd : d.getLast? = some '/') (hdot : '.' ∉ d) :
    matchAt (d ++ t) = none := by
  cases e : matchAt (d ++ t) with
  | none => rfl
  | some m =>
    obtain ⟨_, _, _, _, h⟩ := matchAt_in_dir hd e
    exact absurd h hdot

theorem dirPart_tail {c : Char} {d : List Char} (h : DirPart (c :: d)) : DirPart d := by
  cases d with
  | nil => exact Or.inl rfl
  | cons x d1 =>
    rcases h with h | h
    · exact absurd h (by simp)
    · exact Or.inr (by simpa using h)

/-- The search skips a directory part without a dot. -/
theorem findAllAux_skip_dir : ∀ (d t : List Char) (n : Nat), DirPart d → '.' ∉ d →
    findAllAux (d.length + n) (d ++ t) = findAllAux n t
  | [], t, n, _, _ => by simp
  | c :: d, t, n, hd, hdot => by
    have hl : (c :: d).getLast? = some '/' := by
      rcases hd with h | h
      · exact absurd h (by simp)
      · exact h
    have e : (c :: d).length + n = (d.length + n) + 1 := by
      simp only [List.length_cons]
      omega
    have hnone := matchAt_dir_none (t := t) hl hdot
    rw [e]
    rw [List.cons_append] at hnone ⊢
    rw [findAllAux, hnone]
    exact findAllAux_skip_dir d t n (dirPart_tail hd) (fun m => hdot (List.mem_cons_of_mem _ m))

/-! ## `bootstrap`: the name and the target size -/

/-- The one match in `<name>_<w>x<h>.<ext>`. -/
theorem matchAt_with_dims {name w h : List Char} (hn : PlainName name) (hw : Digits w)
    (hh : Digits h) (ext : List Char) :
    matchAt (name ++ dimsDotExt w h ext) = some ⟨name, w, h, ext⟩ := by
  refine matchAt_name hn.1 hn.2.1 (suffixAt_dims hw hh ext) ?_
  intro q1 q2 e _ hq2
  exact suffixAt_early_dims hq2
    (fun m => hn.2.2 (by rw [e]; exact List.mem_append_right _ m)) hw hh ext

/-- The one match in `<name>.<ext>` when the name does not end with dimensions. -/
theorem matchAt_without_dims {name : List Char} (hn : PlainName name) (hno : NoDims name)
    (ext : List Char) :
    matchAt (name ++ '.' :: ext) = some ⟨name, [], [], ext⟩ := by
  refine matchAt_name hn.1 hn.2.1 (suffixAt_dot ext) ?_
  intro q1 q2 e _ hq2
  exact suffixAt_early_dot (p := q1) hq2
    (fun m => hn.2.2 (by rw [e]; exact List.mem_append_right _ m)) (e ▸ hno) ext

/-- The search in a text at whose start a match is found: that match, then the matches
of the text after it. -/
theorem findAllAux_of_matchAt {s : List Char} {m : Submatch} (hm : matchAt s = some m)
    (n : Nat) : findAllAux (n + 1) s = m :: findAllAux n m.rest := by
  cases s with
  | nil => simp [matchAt] at hm
  | cons c s1 =>
    rw [findAllAux, hm]

/-- A text with a match at its start and no dot after the match has this match only. -/
theorem findAllAux_single {s : List Char} {m : Submatch} (hm : matchAt s = some m)
    (hdot : '.' ∉ m.rest) (n : Nat) (hn : s.length ≤ n) : findAllAux n s = [m] := by
  cases n with
  | zero =>
    cases s with
    | nil => simp [matchAt] at hm
    | cons c s1 => simp at hn
  | succ k => rw [findAllAux_of_matchAt hm, findAllAux_no_dot k _ hdot]

/-- The loop over the matches keeps a name that is not empty. -/
theorem foldl_matchStep_name : ∀ (ms : List Submatch) (t : Target), t.name ≠ [] →
    (ms.foldl matchStep t).name = t.name
  | [], _, _ => rfl
  | m :: ms, t, h => by
    have h1 : (matchStep t m).name = t.name := by
      unfold matchStep
      simp only
      rw [if_neg]
      intro e
      exact h (List.length_eq_zero.1 e)
    rw [List.foldl_cons, foldl_matchStep_name ms _ (by rw [h1]; exact h), h1]

/-- With an empty explicit name, the name is group 1 of the first match. -/
theorem foldl_matchStep_first (m : Submatch) (ms : List Submatch) (hm : m.m1 ≠ [])
    (w h : Nat) :
    ((m :: ms).foldl matchStep { name := [], width := w, height := h }).name = m.m1 := by
  rw [List.foldl_cons, foldl_matchStep_name ms _ (by simpa [matchStep] using hm)]
  simp [matchStep]

/-- The size after the loop is read from the last match. -/
theorem foldl_matchStep_last (pre : List Submatch) (m : Submatch) (t : Target) :
    ((pre ++ [m]).foldl matchStep t).width = atoi m.m3
      ∧ ((pre ++ [m]).foldl matchStep t).height = atoi m.m4 := by
  rw [List.foldl_append]
  simp [matchStep]

theorem resolve_name_eq (filename name : List Char) (img : Image) :
    (resolve filename name img).name
      = ((findAll filename).foldl matchStep { name := name, width := 0, height := 0 }).name := by
  unfold resolve
  simp only
  split <;> rfl

theorem atoi_digits {w : List Char} (hw : Digits w) (hlt : decimal w < 2 ^ 63) :
    atoi w = decimal w := by
  unfold atoi
  have hall : w.all Char.isDigit = true := List.all_eq_true.2 hw.2
  rw [if_neg]
  · omega
  · rintro (h | h)
    · exact hw.1 h
    · exact h hall

theorem atoi_nil : atoi [] = 0 := by
  simp [atoi]

/-- The search in a path whose directory part has no dot starts with the match of the
name. -/
theorem findAll_plain_dir {dir t : List Char} {m : Submatch} (hd : DirPart dir)
    (hdot : '.' ∉ dir) (hm : matchAt t = some m) :
    ∃ ms, findAll (dir ++ t) = m :: ms := by
  unfold findAll
  rw [List.length_append, findAllAux_skip_dir dir t t.length hd hdot]
  cases ht : t.length with
  | zero =>
    rw [List.length_eq_zero.1 ht] at hm
    simp [matchAt] at hm
  | succ k => exact ⟨_, findAllAux_of_matchAt hm k⟩

/-- The size `resolve` settles when the search ends with the match `m`. -/
theorem resolve_size_of_last {filename : List Char} {pre : List Submatch} {m : Submatch}
    (h : findAll filename = pre ++ [m]) (name : List Char) (img : Image) :
    ((atoi m.m4 = 0 ∨ atoi m.m3 = 0) →
        (resolve filename name img).width = img.maxX
          ∧ (resolve filename name img).height = img.maxY)
      ∧ (atoi m.m4 ≠ 0 → atoi m.m3 ≠ 0 →
          (resolve filename name img).width = atoi m.m3
            ∧ (resolve filename name img).height = atoi m.m4) := by
  obtain ⟨e1, e2⟩ := foldl_matchStep_last pre m { name := name, width := 0, height := 0 }
  unfold resolve
  rw [h]
  simp only
  rw [e1, e2]
  constructor
  · intro hz
    rw [if_pos hz]
    exact ⟨rfl, rfl⟩
  · intro h1 h2
    rw [if_neg (by rintro (h | h); exact h1 h; exact h2 h)]
    exact ⟨e1, e2⟩

theorem noDims_of_no_underscore {s : List Char} (h : '_' ∉ s) : NoDims s := by
  intro p w h1 _ _ e
  exact h (by rw [e]; simp)

theorem endsSep_tail {c : Char} {q : List Char} (h : EndsSep (c :: q)) : EndsSep q := by
  cases q with
  | nil => exact Or.inl rfl
  | cons x q1 =>
    rcases h with h | h | h
    · exact absurd h (by simp)
    · exact Or.inr (Or.inl (by simpa using h))
    · exact Or.inr (Or.inr (by simpa using h))

/-- A text that ends with the separator or a dot, cut after one of its dots: what is
left is shorter and ends the same way, or is empty. A text without separator and
without dot is no such text. -/
theorem endsSep_split {q core mid r : List Char} (hq : EndsSep q) (hne : q ≠ [])
    (hs : q ++ core = mid ++ '.' :: r) (h1 : '/' ∉ mid) (h2 : '.' ∉ mid) :
    ∃ q1, r = q1 ++ core ∧ q1.length < q.length ∧ EndsSep q1 := by
  have hlast : '/' ∈ q ∨ '.' ∈ q := by
    rcases hq with h | h | h
    · exact absurd h hne
    · exact Or.inl (List.mem_of_getLast?_eq_some h)
    · exact Or.inr (List.mem_of_getLast?_eq_some h)
  have hnot : ∀ a1, mid ≠ q ++ a1 := by
    intro a1 e
    rcases hlast with h | h
    · exact h1 (by rw [e]; exact List.mem_append_left _ h)
    · exact h2 (by rw [e]; exact List.mem_append_left _ h)
  rcases List.append_eq_append_iff.1 hs with ⟨a1, e1, _⟩ | ⟨c1, e1, e2⟩
  · exact absurd e1 (hnot a1)
  · cases c1 with
    | nil => exact absurd (by simpa using e1.symm) (hnot [])
    | cons x c2 =>
      simp only [List.cons_append, List.cons.injEq] at e2
      obtain ⟨hx, e3⟩ := e2
      subst hx
      refine ⟨c2, e3, by rw [e1]; simp; omega, ?_⟩
      cases c2 with
      | nil => exact Or.inl rfl
      | cons y c3 =>
        have hl : q.getLast? = (y :: c3).getLast? := by
          rw [e1, List.append_cons, List.getLast?_append_of_ne_nil _ (by simp)]
        rcases hq with h | h | h
        · exact absurd h hne
        · exact Or.inr (Or.inl (by rw [← hl]; exact h))
        · exact Or.inr (Or.inr (by rw [← hl]; exact h))

/-- The lazy group started before a text `q ++ core`, where `q` ends with the separator
or a dot and the pattern matches `core` with the groups `w`, `h`: the match ends at
the dot of `core`, with these groups, or inside `q`. -/
theorem matchHere_prefix {core name w h ext : List Char}
    (hcore : ∀ acc, matchHere acc core = some ⟨acc ++ name, w, h, ext⟩) :
    ∀ (q acc : List Char) (m : Submatch), EndsSep q → matchHere acc (q ++ core) = some m →
      (m.m3 = w ∧ m.m4 = h ∧ m.rest = ext)
        ∨ ∃ q1, m.rest = q1 ++ core ∧ q1.length < q.length ∧ EndsSep q1
  | [], acc, m, _, hm => by
    rw [List.nil_append, hcore acc] at hm
    simp only [Option.some.injEq] at hm
    subst hm
    exact Or.inl ⟨rfl, rfl, rfl⟩
  | c :: q, acc, m, hq, hm => by
    rw [List.cons_append, matchHere] at hm
    cases e : suffixAt (c :: (q ++ core)) with
    | some t =>
      obtain ⟨w1, h1, r1⟩ := t
      rw [e] at hm
      simp only [Option.some.injEq] at hm
      subst hm
      obtain ⟨mid, hs, n1, n2, _⟩ := suffixAt_sound e
      exact Or.inr (endsSep_split (q := c :: q) hq (by simp) hs n1 n2)
    | none =>
      rw [e] at hm
      simp only at hm
      by_cases hc : c = '/'
      · simp [hc] at hm
      · rw [if_neg hc] at hm
        rcases matchHere_prefix hcore q (acc ++ [c]) m (endsSep_tail hq) hm with h1 | h1
        · exact Or.inl h1
        · obtain ⟨q1, a1, a2, a3⟩ := h1
          exact Or.inr ⟨q1, a1, by simp only [List.length_cons]; omega, a3⟩

/-- The same for a match that starts in `q`. -/
theorem matchAt_prefix {core name w h ext : List Char}
    (hcore : ∀ acc, matchHere acc core = some ⟨acc ++ name, w, h, ext⟩)
    {c : Char} {q : List Char} {m : Submatch} (hq : EndsSep (c :: q))
    (hm : matchAt (c :: q ++ core) = some m) :
    (m.m3 = w ∧ m.m4 = h ∧ m.rest = ext)
      ∨ ∃ q1, m.rest = q1 ++ core ∧ q1.length < (c :: q).length ∧ EndsSep q1 := by
  rw [List.cons_append, matchAt] at hm
  by_cases hc : c = '/'
  · simp [hc] at hm
  · rw [if_neg hc] at hm
    rcases matchHere_prefix hcore q [c] m (endsSep_tail hq) hm with h1 | h1
    · exact Or.inl h1
    · obtain ⟨q1, a1, a2, a3⟩ := h1
      exact Or.inr ⟨q1, a1, by simp only [List.length_cons]; omega, a3⟩

/-- The search in `q ++ core`, where `q` ends with the separator or a dot, `core` starts
with a dot-free name and the pattern matches it with the groups `w`, `h`, leaving a
text without dot: the last match has the groups `w`, `h`. -/
theorem findAllAux_prefix_last {core name w h ext : List Char}
    (hcore : ∀ acc, matchHere acc core = some ⟨acc ++ name, w, h, ext⟩)
    (hat : matchAt core = some ⟨name, w, h, ext⟩) (hdot : '.' ∉ ext) :
    ∀ (k : Nat) (q : List Char) (n : Nat), q.length ≤ k → EndsSep q →
      q.length + core.length ≤ n →
      ∃ pre m, findAllAux n (q ++ core) = pre ++ [m] ∧ m.m3 = w ∧ m.m4 = h
  | _, [], n, _, _, hn =>
    ⟨[], _, by simpa using findAllAux_single hat hdot n (by simpa using hn), rfl, rfl⟩
  | 0, c :: q, _, hk, _, _ => by simp at hk
  | k + 1, c :: q, 0, _, _, hn => by simp at hn
  | k + 1, c :: q, n + 1, hk, hq, hn => by
    simp only [List.length_cons] at hk hn
    cases e : matchAt (c :: q ++ core) with
    | none =>
      obtain ⟨pre, m, h1, h2, h3⟩ :=
        findAllAux_prefix_last hcore hat hdot k q n (by omega) (endsSep_tail hq) (by omega)
      refine ⟨pre, m, ?_, h2, h3⟩
      rw [List.cons_append] at e ⊢
      rw [findAllAux, e]
      exact h1
    | some m1 =>
      have hstep : findAllAux (n + 1) (c :: q ++ core) = m1 :: findAllAux n m1.rest :=
        findAllAux_of_matchAt e n
      rcases matchAt_prefix hcore hq e with ⟨a1, a2, a3⟩ | ⟨q1, a1, a2, a3⟩
      · refine ⟨[], m1, ?_, a1, a2⟩
        rw [hstep, findAllAux_no_dot n _ (by rw [a3]; exact hdot)]
        rfl
      · simp only [List.length_cons] at a2
        obtain ⟨pre, m, h1, h2, h3⟩ :=
          findAllAux_prefix_last hcore hat hdot k q1 n (by omega) a3 (by omega)
        refine ⟨m1 :: pre, m, ?_, h2, h3⟩
        rw [hstep, a1, h1]
        rfl

theorem findAll_prefix_last {core name w h ext : List Char}
    (hcore : ∀ acc, matchHere acc core = some ⟨acc ++ name, w, h, ext⟩)
    (hat : matchAt core = some ⟨name, w, h, ext⟩) (hdot : '.' ∉ ext)
    {q : List Char} (hq : EndsSep q) :
    ∃ pre m, findAll (q ++ core) = pre ++ [m] ∧ m.m3 = w ∧ m.m4 = h := by
  unfold findAll
  exact findAllAux_prefix_last hcore hat hdot q.length q _ (Nat.le_refl _) hq
    (by rw [List.length_append])

/-- The lazy group, whatever it took before, runs over `<name>_<w>x<h>.`. -/
theorem matchHere_with_dims {name w h : List Char} (hn : PlainName name) (hw : Digits w)
    (hh : Digits h) (ext acc : List Char) :
    matchHere acc (name ++ dimsDotExt w h ext) = some ⟨acc ++ name, w, h, ext⟩ := by
  refine matchHere_run _ w h ext (suffixAt_dims hw hh ext) name acc hn.2.1 ?_
  intro q1 q2 e hq2
  exact suffixAt_early_dims hq2
    (fun m => hn.2.2 (by rw [e]; exact List.mem_append_right _ m)) hw hh ext

/-- The lazy group, whatever it took before, runs over `<name>.` when the name does not
end with dimensions. -/
theorem matchHere_without_dims {name : List Char} (hn : PlainName name) (hno : NoDims name)
    (ext acc : List Char) :
    matchHere acc (name ++ '.' :: ext) = some ⟨acc ++ name, [], [], ext⟩ := by
  refine matchHere_run _ [] [] ext (suffixAt_dot ext) name acc hn.2.1 ?_
  intro q1 q2 e hq2
  exact suffixAt_early_dot (p := q1) hq2
    (fun m => hn.2.2 (by rw [e]; exact List.mem_append_right _ m)) (e ▸ hno) ext

/-- C2, refuted as stated: for `/tmp/my.pics/logo.png` the name is `my`, not `logo`; for
`my.logo.png` it is `my`, not `my.logo`; for `logo`, a file without extension, it is
empty, not `logo`. -/
theorem resolve_name_counterexample :
    ((resolve "/tmp/my.pics/logo.png".toList [] img4).name = "my".toList
        ∧ specName "/tmp/my.pics/logo.png".toList = "logo".toList)
      ∧ ((resolve "my.logo.png".toList [] img4).name = "my".toList
        ∧ specName "my.logo.png".toList = "my.logo".toList)
      ∧ ((resolve "logo".toList [] img4).name = []
        ∧ specName "logo".toList = "logo".toList) := by
  refine ⟨⟨by decide, by decide⟩, ⟨by decide, by decide⟩, by decide, by decide⟩

/-- C2, amended: for a path `<dir><name>_<w>x<h>.<ext>` or `<dir><name>.<ext>`, where
`dir` is empty or ends with the separator and has no dot, `name` is not empty and
has neither separator nor dot, `ext` has neither separator nor dot, `w` and `h` are
runs of digits, and in the second form `name` does not itself end with
`_<digits>x<digits>`, the name resolved for an empty explicit name is `name`, the
basename without its extension and without the dimensions; for every path and
every explicit name that is not empty, the name resolved is the explicit name. -/
theorem resolve_name (img : Image) (dir name ext : List Char)
    (hd : DirPart dir) (hdot : '.' ∉ dir) (hn : PlainName name) (he : PlainExt ext) :
    (∀ w h, Digits w → Digits h →
        (resolve (pathWithDims dir name w h ext) [] img).name = name)
      ∧ (NoDims name → (resolve (pathWithoutDims dir name ext) [] img).name = name)
      ∧ (∀ path explicit, explicit ≠ [] → (resolve path explicit img).name = explicit) := by
  have _ := he
  refine ⟨?_, ?_, ?_⟩
  · intro w h hw hh
    obtain ⟨ms, hms⟩ := findAll_plain_dir hd hdot (matchAt_with_dims hn hw hh ext)
    unfold pathWithDims
    rw [resolve_name_eq, hms, foldl_matchStep_first _ _ hn.1]
  · intro hno
    obtain ⟨ms, hms⟩ := findAll_plain_dir hd hdot (matchAt_without_dims hn hno ext)
    unfold pathWithoutDims
    rw [resolve_name_eq, hms, foldl_matchStep_first _ _ hn.1]
  · intro path explicit hne
    rw [resolve_name_eq, foldl_matchStep_name _ _ hne]

/-- C2 amended, at `/home/u/logo_10x5.png`, at `/home/u/logo.png`, and at the explicit
name `cat`; at both paths the name is the one the specification describes. -/
theorem resolve_name_witness :
    (resolve (pathWithDims "/home/u/".toList "logo".toList "10".toList "5".toList
        "png".toList) [] img4).name = "logo".toList
      ∧ (resolve (pathWithoutDims "/home/u/".toList "logo".toList "png".toList) [] img4).name
        = "logo".toList
      ∧ (resolve "/home/u/logo_10x5.png".toList "cat".toList img4).name = "cat".toList
      ∧ specName (pathWithDims "/home/u/".toList "logo".toList "10".toList "5".toList
          "png".toList) = "logo".toList
      ∧ specName (pathWithoutDims "/home/u/".toList "logo".toList "png".toList)
          = "logo".toList :=
  have h := resolve_name img4 "/home/u/".toList "logo".toList "png".toList
    (Or.inr (by decide)) (by decide) ⟨by decide, by decide, by decide⟩
    ⟨by decide, by decide⟩
  ⟨h.1 _ _ ⟨by decide, by decide⟩ ⟨by decide, by decide⟩,
    h.2.1 (noDims_of_no_underscore (by decide)),
    h.2.2 _ _ (by decide), by decide, by decide⟩

/-- C3, refuted as stated: `logo_0x5.png` encodes the width 0 and the height 5, and for
the 4 x 4 image the target size is 4 x 4; `logo_99999999999999999999x5.png` encodes a
width that no `int` holds, and the target width is `2 ^ 63 - 1`. -/
theorem resolve_size_counterexample :
    ((findAll "logo_0x5.png".toList).map (fun m => (m.m3, m.m4)) = [("0".toList, "5".toList)]
        ∧ (resolve "logo_0x5.png".toList [] img4).width = 4
        ∧ (resolve "logo_0x5.png".toList [] img4).height = 4)
      ∧ (decimal "99999999999999999999".toList = 99999999999999999999
        ∧ (resolve "logo_99999999999999999999x5.png".toList [] img4).width = 2 ^ 63 - 1
        ∧ (resolve "logo_99999999999999999999x5.png".toList [] img4).height = 5) := by
  refine ⟨⟨by decide, by decide, by decide⟩, by decide, by decide, by decide⟩

/-- C3, amended: for a path `<pre><name>_<w>x<h>.<ext>` where `pre` is empty or ends with
the separator or a dot, `name` is not empty and has neither separator nor dot,
`ext` has neither separator nor dot, and `w`, `h` are runs of digits (so the file
name ends with `_<w>x<h>.<ext>`), the target size handed to `getPixelInfo` is the
width `w` and the height `h` when both are positive and below `2 ^ 63`, and the size
of the image when one of them is zero; for a path `<pre><name>.<ext>` whose name does
not end with `_<digits>x<digits>`, and for a path without any dot, it is the size of
the image. -/
theorem resolve_size (img : Image) (pre name ext explicit : List Char)
    (hp : EndsSep pre) (hn : PlainName name) (he : PlainExt ext) :
    (∀ w h, Digits w → Digits h → 0 < decimal w → decimal w < 2 ^ 63 →
        0 < decimal h → decimal h < 2 ^ 63 →
        (resolve (pathWithDims pre name w h ext) explicit img).width = decimal w
          ∧ (resolve (pathWithDims pre name w h ext) explicit img).height = decimal h)
      ∧ (∀ w h, Digits w → Digits h → decimal w = 0 ∨ decimal h = 0 →
        (resolve (pathWithDims pre name w h ext) explicit img).width = img.maxX
          ∧ (resolve (pathWithDims pre name w h ext) explicit img).height = img.maxY)
      ∧ (NoDims name →
        (resolve (pathWithoutDims pre name ext) explicit img).width = img.maxX
          ∧ (resolve (pathWithoutDims pre name ext) explicit img).height = img.maxY)
      ∧ (∀ path, '.' ∉ path →
        (resolve path explicit img).width = img.maxX
          ∧ (resolve path explicit img).height = img.maxY) := by
  refine ⟨?_, ?_, ?_, ?_⟩
  · intro w h hw hh w0 w1 h0 h1
    obtain ⟨ms, m, hms, m3, m4⟩ := findAll_prefix_last
      (fun acc => matchHere_with_dims hn hw hh ext acc) (matchAt_with_dims hn hw hh ext)
      he.2 hp
    have key := (resolve_size_of_last hms explicit img).2
    simp only [m3, m4, atoi_digits hw w1, atoi_digits hh h1] at key
    exact key (by omega) (by omega)
  · intro w h hw hh hz
    obtain ⟨ms, m, hms, m3, m4⟩ := findAll_prefix_last
      (fun acc => matchHere_with_dims hn hw hh ext acc) (matchAt_with_dims hn hw hh ext)
      he.2 hp
    refine (resolve_size_of_last hms explicit img).1 ?_
    rw [m3, m4]
    rcases hz with hz | hz
    · exact Or.inr (by rw [atoi_digits hw (by omega), hz])
    · exact Or.inl (by rw [atoi_digits hh (by omega), hz])
  · intro hno
    obtain ⟨ms, m, hms, m3, m4⟩ := findAll_prefix_last
      (fun acc => matchHere_without_dims hn hno ext acc) (matchAt_without_dims hn hno ext)
      he.2 hp
    refine (resolve_size_of_last hms explicit img).1 (Or.inl ?_)
    rw [m4]
    exact atoi_nil
  · intro path hpath
    have hnil : findAll path = [] := findAllAux_no_dot _ _ hpath
    unfold resolve
    rw [hnil]
    simp

/-- C3 amended, at `/tmp/my.pics/a.logo_10x5.png`, `/tmp/my.pics/a.logo_0x5.png`,
`/tmp/my.pics/a.logo.png` and `logo`, with the 4 x 4 image. -/
theorem resolve_size_witness :
    ((resolve (pathWithDims "/tmp/my.pics/a.".toList "logo".toList "10".toList "5".toList
          "png".toList) [] img4).width = decimal "10".toList
        ∧ (resolve (pathWithDims "/tmp/my.pics/a.".toList "logo".toList "10".toList
          "5".toList "png".toList) [] img4).height = decimal "5".toList)
      ∧ ((resolve (pathWithDims "/tmp/my.pics/a.".toList "logo".toList "0".toList "5".toList
          "png".toList) [] img4).width = img4.maxX
        ∧ (resolve (pathWithDims "/tmp/my.pics/a.".toList "logo".toList "0".toList
          "5".toList "png".toList) [] img4).height = img4.maxY)
      ∧ ((resolve (pathWithoutDims "/tmp/my.pics/a.".toList "logo".toList "png".toList)
          [] img4).width = img4.maxX
        ∧ (resolve (pathWithoutDims "/tmp/my.pics/a.".toList "logo".toList "png".toList)
          [] img4).height = img4.maxY)
      ∧ ((resolve "logo".toList [] img4).width = img4.maxX
        ∧ (resolve "logo".toList [] img4).height = img4.maxY) :=
  have h := resolve_size img4 "/tmp/my.pics/a.".toList "logo".toList "png".toList []
    (Or.inr (Or.inr (by decide))) ⟨by decide, by decide, by decide⟩ ⟨by decide, by decide⟩
  ⟨h.1 _ _ ⟨by decide, by decide⟩ ⟨by decide, by decide⟩ (by decide) (by decide)
      (by decide) (by decide),
    h.2.1 _ _ ⟨by decide, by decide⟩ ⟨by decide, by decide⟩ (Or.inl (by decide)),
    h.2.2.1 (noDims_of_no_underscore (by decide)),
    h.2.2.2 _ (by decide)⟩

end Artty
